import Mathlib

/-!
Verification development for the `ded` terminal text editor.

The editing core (`src/textarea/*.rs`, `src/editor.rs`, `src/main.rs`) is
shallowly embedded: each Rust `String` line is modelled as a `List Char`,
and byte offsets are identified with character indices (this is exact for
ASCII content, which every concrete input below uses).  Rust `Vec` stacks
are modelled as Lean lists whose head is the top of the stack.  Operations
that would panic in Rust on out-of-range indices are totalised in the
standard clamping way of `List.take`/`List.drop`; every theorem below is
evaluated or proved only on inputs where the source would not panic,
except where a panic itself is the point (then it is modelled explicitly
with `Except`).
-/

set_option linter.unusedVariables false

namespace Ded

/-- One line of buffer text (a Rust `String` without terminator). -/
abbrev Line := List Char

/-- The buffer content, `Vec<String>` in `TextArea::lines`. -/
abbrev Lines := List Line

/-- `CursorPosition` (src/textarea/cursor.rs): row and character column. -/
structure CursorPosition where
  row : Nat
  col : Nat
deriving DecidableEq, Repr

/-- The strict comparison `cursor < other` from `Ord for CursorPosition`:
primarily by row, then by column. -/
def CursorPosition.blt (a b : CursorPosition) : Bool :=
  a.row < b.row || (a.row == b.row && a.col < b.col)

/-- `byte_index` (src/textarea/byte_index.rs): the byte offset of the
`char_idx`-th character boundary, or the line's total length when the
column is at or past the end of the line.  Bytes = characters here. -/
def byte_index (l : Line) (char_idx : Nat) : Nat := min char_idx l.length

/-- `BytePosition` (src/textarea/history.rs): row plus byte offset. -/
structure BytePosition where
  row : Nat
  col : Nat
deriving DecidableEq, Repr

/-- `BytePosition::from_line`. -/
def BytePosition.from_line (c : CursorPosition) (l : Line) : BytePosition :=
  ⟨c.row, byte_index l c.col⟩

/-- `HistoryAction` (src/textarea/history.rs): the invertible edit
primitives, each carrying a `(cursor-before, cursor-after)` pair. -/
inductive HistoryAction where
  | insertChar (char : Char) (position : BytePosition)
      (cursor : CursorPosition × CursorPosition)
  | removeChar (char : Char) (position : BytePosition)
      (cursor : CursorPosition × CursorPosition)
  | insertLinebreak (position : BytePosition)
      (cursor : CursorPosition × CursorPosition)
  | removeLinebreak (position : BytePosition)
      (cursor : CursorPosition × CursorPosition)
  | insertLines (lines : List Line) (position : BytePosition)
      (cursor : CursorPosition × CursorPosition)
  | removeLines (lines : List Line) (position : BytePosition)
      (cursor : CursorPosition × CursorPosition)
  | swapLines (lines : Nat × Nat)
      (cursor : CursorPosition × CursorPosition)
deriving DecidableEq, Repr

/-- `HistoryAction::invert`: swap insert and remove roles and swap the
before/after cursor pair. -/
def HistoryAction.invert : HistoryAction → HistoryAction
  | .insertChar ch p (c1, c2) => .removeChar ch p (c2, c1)
  | .removeChar ch p (c1, c2) => .insertChar ch p (c2, c1)
  | .insertLinebreak p (c1, c2) => .removeLinebreak p (c2, c1)
  | .removeLinebreak p (c1, c2) => .insertLinebreak p (c2, c1)
  | .insertLines ls p (c1, c2) => .removeLines ls p (c2, c1)
  | .removeLines ls p (c1, c2) => .insertLines ls p (c2, c1)
  | .swapLines (l1, l2) (c1, c2) => .swapLines (l2, l1) (c2, c1)

/-- Replace line `r` by `f` of its old value; an out-of-range row (an index
panic in the Rust source) leaves the buffer unchanged. -/
def modifyLine (ls : Lines) (r : Nat) (f : Line → Line) : Lines :=
  ls.set r (f (ls.getD r []))

/-- `String::insert` at a byte offset (in range in the source). -/
def strInsert (l : Line) (pos : Nat) (c : Char) : Line :=
  l.take pos ++ c :: l.drop pos

/-- `String::insert_str` at a byte offset. -/
def strInsertStr (l : Line) (pos : Nat) (s : Line) : Line :=
  l.take pos ++ s ++ l.drop pos

/-- `String::drain(a..b)`: delete the byte range `[a, b)`. -/
def strDrain (l : Line) (a b : Nat) : Line :=
  l.take a ++ l.drop b

/-- `String::remove` at a byte offset. -/
def strRemove (l : Line) (pos : Nat) : Line :=
  l.take pos ++ l.drop (pos + 1)

/-- `Vec::splice(i..i, ns)`: insert the block `ns` before row `i`. -/
def spliceInsert (ls : Lines) (i : Nat) (ns : Lines) : Lines :=
  ls.take i ++ ns ++ ls.drop i

/-- `Vec::swap` of two rows (in range in the source). -/
def vecSwap (ls : Lines) (i j : Nat) : Lines :=
  if i < ls.length ∧ j < ls.length then
    (ls.set i (ls.getD j [])).set j (ls.getD i [])
  else ls

/-- `HistoryAction::apply` (src/textarea/history.rs): mutate the line
sequence and return the action's own recorded cursor-after.  The Rust
method mutates `lines` in place; here the new lines are returned. -/
def HistoryAction.apply (a : HistoryAction) (lines : Lines) :
    Lines × CursorPosition :=
  match a with
  | .insertChar ch p (_, c) =>
      (modifyLine lines p.row (fun l => strInsert l p.col ch), c)
  | .removeChar _ p (_, c) =>
      (modifyLine lines p.row (fun l => strRemove l p.col), c)
  | .insertLinebreak p (_, c) =>
      -- lines.insert(row + 1, lines[row][col..]); lines[row].drain(col..)
      let tail := (lines.getD p.row []).drop p.col
      let lines1 := spliceInsert lines (p.row + 1) [tail]
      (modifyLine lines1 p.row (fun l => l.take p.col), c)
  | .removeLinebreak p (_, c) =>
      -- append lines[row + 1] to lines[row], then remove row + 1
      let merged := (lines.getD p.row []) ++ (lines.getD (p.row + 1) [])
      ((modifyLine lines p.row (fun _ => merged)).eraseIdx (p.row + 1), c)
  | .insertLines ls p (_, c) =>
      (match ls with
       | [] => lines
       | [s] => modifyLine lines p.row (fun l => strInsertStr l p.col s)
       | s0 :: s1 :: rest =>
         match lines.get? p.row with
         | some l =>
           -- split lines[row] at the offset; head keeps the block's first
           -- line, the remaining block lines are spliced in after it, and
           -- the block's last line receives the split-off tail
           let l1 := l.take p.col
           let l2 := l.drop p.col
           let lines1 := lines.set p.row (l1 ++ s0)
           let lines2 := spliceInsert lines1 (p.row + 1) (s1 :: rest)
           lines2.set (p.row + (s1 :: rest).length)
             (((s1 :: rest).getLast (by simp)) ++ l2)
         | none => spliceInsert lines p.row ((s0 :: s1 :: rest).dropLast), c)
  | .removeLines ls p (_, c) =>
      (match ls with
       | [] => lines
       | [s] =>
         modifyLine lines p.row (fun l => strDrain l p.col (p.col + s.length))
       | s0 :: s1 :: rest =>
         -- replace_range(col.., suffix of lines[row + K - 1] after the last
         -- payload line), then drain rows row+1 .. row+K (clamped)
         let k := (s0 :: s1 :: rest).length
         let lastLen := ((s1 :: rest).getLast (by simp)).length
         let tailPart :=
           match lines.get? (p.row + k - 1) with
           | some l => l.drop lastLen
           | none => []
         let n := lines.length
         let lines1 := modifyLine lines p.row (fun l => l.take p.col ++ tailPart)
         lines1.take (min (p.row + 1) n) ++ lines1.drop (min (p.row + k) n), c)
  | .swapLines (l1, l2) (_, c2) =>
      (vecSwap lines l1 l2, c2)

/-- Indent mode (src/textarea/indent.rs): one tab, or a literal space run. -/
inductive Indent where
  | tabs
  | spaces (sp : Line)
deriving DecidableEq, Repr

/-- The per-buffer editing state of `TextArea` (src/textarea/textarea.rs).
The render-only `view` cell, the clipboard handle and the compiled search
pattern are external collaborators and are passed separately where
needed.  Stacks have their top at the head. -/
structure TextArea where
  lines : Lines
  cursor : CursorPosition
  selection : Option CursorPosition
  undo_history : List (HistoryAction × Bool)
  redo_history : List (HistoryAction × Bool)
  indent : Indent
deriving DecidableEq, Repr

/-- `TextArea::set_cursor`: store the cursor unconditionally, adjusting the
selection anchor according to the shift flag. -/
def set_cursor (s : TextArea) (cursor : CursorPosition) (shift : Bool) :
    TextArea :=
  let sel :=
    match s.selection, shift with
    | some _, false => none
    | none, true => some s.cursor
    | sel, _ => sel
  { s with selection := sel, cursor := cursor }

/-- `TextArea::set_selection`. -/
def set_selection (s : TextArea) (sel : Option CursorPosition) : TextArea :=
  { s with selection := sel }

/-- `TextArea::do_action`: clear the redo stack, apply, push with
continuation flag `false`; returns the recorded cursor-after. -/
def do_action (s : TextArea) (a : HistoryAction) : TextArea × CursorPosition :=
  let (ls, cursor) := a.apply s.lines
  ({ s with lines := ls, redo_history := [],
            undo_history := (a, false) :: s.undo_history }, cursor)

/-- `TextArea::do_action_chain`: clear the redo stack, apply, push with
continuation flag `true`. -/
def do_action_chain (s : TextArea) (a : HistoryAction) :
    TextArea × CursorPosition :=
  let (ls, cursor) := a.apply s.lines
  ({ s with lines := ls, redo_history := [],
            undo_history := (a, true) :: s.undo_history }, cursor)

/-- The pop/invert/apply/push loop shared by `TextArea::undo_action` and
`TextArea::redo_action` (their bodies are verbatim mirror images): pop
from the first stack, invert, apply, push onto the second stack, and keep
looping while the popped continuation flag is true.  Returns the two
updated stacks, the new lines, and the cursor of the final application
(`none` when the source stack ran out, as with `pop()?`). -/
def undoGo : List (HistoryAction × Bool) → List (HistoryAction × Bool) →
    Lines →
    List (HistoryAction × Bool) × List (HistoryAction × Bool) × Lines ×
      Option CursorPosition
  | [], other, lines => ([], other, lines, none)
  | (a, chain) :: rest, other, lines =>
    let inv := a.invert
    let (ls, cursor) := inv.apply lines
    if chain then undoGo rest ((inv, chain) :: other) ls
    else (rest, (inv, chain) :: other, ls, some cursor)

/-- `TextArea::undo_action`. -/
def undo_action (s : TextArea) : TextArea × Option CursorPosition :=
  let (u, r, ls, c) := undoGo s.undo_history s.redo_history s.lines
  ({ s with lines := ls, undo_history := u, redo_history := r }, c)

/-- `TextArea::redo_action`: the same loop with the two stacks swapped. -/
def redo_action (s : TextArea) : TextArea × Option CursorPosition :=
  let (r, u, ls, c) := undoGo s.redo_history s.undo_history s.lines
  ({ s with lines := ls, undo_history := u, redo_history := r }, c)

/-! ### Claim C10: recording an action always clears the redo stack -/

/-- Claim C10: both `do_action` and `do_action_chain` unconditionally clear
the redo stack before recording their action, so immediately after any new
action is recorded — a chain opener or a chained continuation alike — the
redo stack is empty; in particular a `do_action_chain` issued after an
undo discards all redoable history. -/
theorem redo_stack_cleared_on_record (s : TextArea) (a : HistoryAction) :
    (do_action s a).1.redo_history = [] ∧
    (do_action_chain s a).1.redo_history = [] :=
  ⟨rfl, rfl⟩

/-! ### Claim C1: undo/redo of a chained edit -/

/-- Start state for the C1 evaluation: one empty line, empty history. -/
def c1Start : TextArea :=
  ⟨[[]], ⟨0, 0⟩, none, [], [], .spaces [' ', ' ', ' ', ' ']⟩

/-- First primitive of the chain: insert `a` at row 0, byte 0. -/
def c1A1 : HistoryAction := .insertChar 'a' ⟨0, 0⟩ (⟨0, 0⟩, ⟨0, 1⟩)

/-- Chained second primitive: insert `b` at row 0, byte 1. -/
def c1A2 : HistoryAction := .insertChar 'b' ⟨0, 1⟩ (⟨0, 1⟩, ⟨0, 2⟩)

/-- The state after the chain `do_action c1A1; do_action_chain c1A2`. -/
def c1AfterChain : TextArea := (do_action_chain (do_action c1Start c1A1).1 c1A2).1

/-- The state after one `undo_action`. -/
def c1AfterUndo : TextArea := (undo_action c1AfterChain).1

/-- The state after one subsequent `redo_action`. -/
def c1AfterRedo : TextArea := (redo_action c1AfterUndo).1

/-- Claim C1, evaluated at the failing input: after the 2-action chain the
lines read `ab`; one `undo_action` does restore the empty pre-chain buffer;
but one `redo_action` yields `a`, not `ab` — it replays only the first
primitive of the chain (the chain-terminating `false` flag sits on top of
the redo stack, so the redo loop stops after one entry), leaving one entry
still on the redo stack.  This contradicts the claim that a single redo
reproduces the post-chain lines by replaying all N primitives. -/
theorem undo_redo_chain_code_bug :
    c1AfterChain.lines = [['a', 'b']] ∧
    c1AfterUndo.lines = [[]] ∧
    (undo_action c1AfterChain).2 = some ⟨0, 0⟩ ∧
    c1AfterRedo.lines = [['a']] ∧
    c1AfterRedo.lines ≠ [['a', 'b']] ∧
    c1AfterRedo.redo_history.length = 1 := by
  decide

/-! ### List helpers shared by the buffer-splice proofs -/

theorem set_getD_id {α : Type} (d : α) :
    ∀ (l : List α) (i : Nat), l.set i (l.getD i d) = l
  | [], _ => rfl
  | _ :: _, 0 => rfl
  | a :: t, i + 1 => congrArg (a :: ·) (set_getD_id d t i)

theorem getD_append_len {α : Type} (d : α) :
    ∀ (X : List α) (y : α) (B : List α), (X ++ y :: B).getD X.length d = y
  | [], _, _ => rfl
  | _ :: X, y, B => getD_append_len d X y B

theorem get?_append_len {α : Type} :
    ∀ (X : List α) (y : α) (B : List α), (X ++ y :: B).get? X.length = some y
  | [], _, _ => rfl
  | _ :: X, y, B => get?_append_len X y B

theorem set_append_len {α : Type} :
    ∀ (X : List α) (y z : α) (B : List α),
      (X ++ y :: B).set X.length z = X ++ z :: B
  | [], _, _, _ => rfl
  | a :: X, y, z, B => congrArg (a :: ·) (set_append_len X y z B)

theorem take_cons_drop_getD {α : Type} (d : α) :
    ∀ (l : List α) (i : Nat), i < l.length →
      l.take i ++ l.getD i d :: l.drop (i + 1) = l
  | _ :: _, 0, _ => rfl
  | a :: t, i + 1, h =>
    congrArg (a :: ·) (take_cons_drop_getD d t i (Nat.lt_of_succ_lt_succ h))

/-- `modifyLine` at the exact boundary of a decomposed buffer. -/
theorem modifyLine_append (A : Lines) (y : Line) (B : Lines) (f : Line → Line) :
    modifyLine (A ++ y :: B) A.length f = A ++ f y :: B := by
  unfold modifyLine
  rw [getD_append_len, set_append_len]

/-- `spliceInsert` right after the head of a decomposed buffer. -/
theorem spliceInsert_mid (A : Lines) (x : Line) (B mid : Lines) :
    spliceInsert (A ++ x :: B) (A.length + 1) mid = A ++ x :: (mid ++ B) := by
  unfold spliceInsert
  have h : A ++ x :: B = (A ++ [x]) ++ B := by simp
  have hlen : (A ++ [x]).length = A.length + 1 := by simp
  rw [h, List.take_left' hlen, List.drop_left' hlen]
  simp

/-- Draining an inserted block back out of a line restores the line. -/
theorem strDrain_strInsertStr (l s : Line) (col : Nat) (h : col ≤ l.length) :
    strDrain (strInsertStr l col s) col (col + s.length) = l := by
  unfold strDrain strInsertStr
  have hlen : (l.take col).length = col := by
    rw [List.length_take]; omega
  have h1 : ((l.take col ++ s) ++ l.drop col).take col = l.take col := by
    rw [List.take_append_of_le_length (by simp [hlen])]
    rw [List.take_append_of_le_length (by omega)]
    rw [List.take_take, Nat.min_self]
  have hlen2 : (l.take col ++ s).length = col + s.length := by simp [hlen]
  have h2 : ((l.take col ++ s) ++ l.drop col).drop (col + s.length)
      = l.drop col := List.drop_left' hlen2
  calc (l.take col ++ s ++ l.drop col).take col
        ++ (l.take col ++ s ++ l.drop col).drop (col + s.length)
      = l.take col ++ l.drop col := by rw [h1, h2]
    _ = l := List.take_append_drop col l

/-! ### Claim C7: insert-then-remove of a block is the identity -/

/-- Shape of a multi-line `InsertLines` on a buffer decomposed around the
action row: the addressed line splits at the offset, the head of the block
joins its prefix, the last block line receives its suffix, and the interior
block lines sit in between. -/
theorem insertLines_apply_shape (A : Lines) (l : Line) (B : Lines) (col : Nat)
    (s0 s1 : Line) (rest : List Line) (d1 d2 : CursorPosition) :
    (HistoryAction.apply
      (.insertLines (s0 :: s1 :: rest) ⟨A.length, col⟩ (d1, d2))
      (A ++ l :: B)).1
    = A ++ (l.take col ++ s0) ::
        ((s1 :: rest).dropLast ++
          ((s1 :: rest).getLast (by simp) ++ l.drop col) :: B) := by
  simp only [HistoryAction.apply]
  rw [get?_append_len]
  dsimp only
  rw [set_append_len, spliceInsert_mid]
  have hmidsplit :
      (s1 :: rest).dropLast ++ [(s1 :: rest).getLast (by simp)] = s1 :: rest :=
    List.dropLast_append_getLast (by simp)
  have hshape : A ++ (l.take col ++ s0) :: ((s1 :: rest) ++ B)
      = (A ++ (l.take col ++ s0) :: (s1 :: rest).dropLast)
          ++ (s1 :: rest).getLast (by simp) :: B := by
    conv_lhs => rw [← hmidsplit]
    simp
  have hidx : A.length + (s1 :: rest).length
      = (A ++ (l.take col ++ s0) :: (s1 :: rest).dropLast).length := by
    simp [List.length_dropLast]
  rw [hshape, hidx, set_append_len]
  simp

/-- A multi-line `RemoveLines` with the block payload that
`insertLines_apply_shape` produced reconstructs the original buffer. -/
theorem removeLines_apply_restore (A : Lines) (l : Line) (B : Lines)
    (col : Nat) (s0 s1 : Line) (rest : List Line) (d3 d4 : CursorPosition)
    (hcol : col ≤ l.length) :
    (HistoryAction.apply
      (.removeLines (s0 :: s1 :: rest) ⟨A.length, col⟩ (d3, d4))
      (A ++ (l.take col ++ s0) ::
        ((s1 :: rest).dropLast ++
          ((s1 :: rest).getLast (by simp) ++ l.drop col) :: B))).1
    = A ++ l :: B := by
  simp only [HistoryAction.apply]
  have hrowk : A.length + (s0 :: s1 :: rest).length - 1
      = (A ++ (l.take col ++ s0) :: (s1 :: rest).dropLast).length := by
    simp [List.length_dropLast]
  have hget : (A ++ (l.take col ++ s0) ::
        ((s1 :: rest).dropLast ++
          ((s1 :: rest).getLast (by simp) ++ l.drop col) :: B)).get?
        (A.length + (s0 :: s1 :: rest).length - 1)
      = some ((s1 :: rest).getLast (by simp) ++ l.drop col) := by
    rw [hrowk,
      show A ++ (l.take col ++ s0) ::
          ((s1 :: rest).dropLast ++
            ((s1 :: rest).getLast (by simp) ++ l.drop col) :: B)
        = (A ++ (l.take col ++ s0) :: (s1 :: rest).dropLast)
            ++ ((s1 :: rest).getLast (by simp) ++ l.drop col) :: B
        from by simp]
    exact get?_append_len _ _ _
  rw [hget]
  dsimp only
  rw [List.drop_left, modifyLine_append]
  have htakecol : (l.take col).length = col := by rw [List.length_take]; omega
  have htcol : (l.take col ++ s0).take col = l.take col := by
    rw [List.take_append_of_le_length (Nat.le_of_eq htakecol.symm),
      List.take_take, Nat.min_self]
  rw [htcol, List.take_append_drop]
  have hmin1 : min (A.length + 1)
      (A ++ (l.take col ++ s0) ::
        ((s1 :: rest).dropLast ++
          ((s1 :: rest).getLast (by simp) ++ l.drop col) :: B)).length
      = A.length + 1 := by
    simp [List.length_dropLast]
  have hmin2 : min (A.length + (s0 :: s1 :: rest).length)
      (A ++ (l.take col ++ s0) ::
        ((s1 :: rest).dropLast ++
          ((s1 :: rest).getLast (by simp) ++ l.drop col) :: B)).length
      = A.length + rest.length + 2 := by
    simp [List.length_dropLast]; omega
  rw [hmin1, hmin2]
  have htake : (A ++ l ::
        ((s1 :: rest).dropLast ++
          ((s1 :: rest).getLast (by simp) ++ l.drop col) :: B)).take
        (A.length + 1) = A ++ [l] := by
    rw [show A ++ l ::
          ((s1 :: rest).dropLast ++
            ((s1 :: rest).getLast (by simp) ++ l.drop col) :: B)
        = (A ++ [l]) ++
            ((s1 :: rest).dropLast ++
              ((s1 :: rest).getLast (by simp) ++ l.drop col) :: B)
        from by simp]
    exact List.take_left' (by simp)
  have hdrop : (A ++ l ::
        ((s1 :: rest).dropLast ++
          ((s1 :: rest).getLast (by simp) ++ l.drop col) :: B)).drop
        (A.length + rest.length + 2) = B := by
    rw [show A ++ l ::
          ((s1 :: rest).dropLast ++
            ((s1 :: rest).getLast (by simp) ++ l.drop col) :: B)
        = ((A ++ [l]) ++
            ((s1 :: rest).dropLast ++
              [(s1 :: rest).getLast (by simp) ++ l.drop col])) ++ B
        from by simp]
    exact List.drop_left' (by simp [List.length_dropLast]; omega)
  rw [htake, hdrop]
  simp

/-- Core of claim C7 on a buffer decomposed as `A ++ l :: B`. -/
theorem insert_remove_core (A : Lines) (l : Line) (B : Lines) (col : Nat)
    (ls : List Line) (d1 d2 d3 d4 : CursorPosition)
    (hcol : col ≤ l.length) (hls : ls ≠ []) :
    (HistoryAction.apply (.removeLines ls ⟨A.length, col⟩ (d3, d4))
      (HistoryAction.apply (.insertLines ls ⟨A.length, col⟩ (d1, d2))
        (A ++ l :: B)).1).1 = A ++ l :: B := by
  match ls with
  | [] => exact absurd rfl hls
  | [s] =>
    show (HistoryAction.apply (.removeLines [s] ⟨A.length, col⟩ (d3, d4))
        (modifyLine (A ++ l :: B) A.length
          (fun t => strInsertStr t col s))).1 = A ++ l :: B
    rw [modifyLine_append]
    show modifyLine (A ++ strInsertStr l col s :: B) A.length
        (fun t => strDrain t col (col + s.length)) = A ++ l :: B
    rw [modifyLine_append, strDrain_strInsertStr l s col hcol]
  | s0 :: s1 :: rest =>
    rw [insertLines_apply_shape,
      removeLines_apply_restore A l B col s0 s1 rest d3 d4 hcol]

/-- Claim C7: for every valid line sequence, valid byte position and
non-empty block, applying `InsertLines` with that block and then
`RemoveLines` with the same payload at the same recorded position is the
identity on the line sequence. -/
theorem insert_then_remove_block_identity (lines : Lines) (row col : Nat)
    (ls : List Line) (d1 d2 d3 d4 : CursorPosition)
    (hrow : row < lines.length) (hcol : col ≤ (lines.getD row []).length)
    (hls : ls ≠ []) :
    (HistoryAction.apply (.removeLines ls ⟨row, col⟩ (d3, d4))
      (HistoryAction.apply (.insertLines ls ⟨row, col⟩ (d1, d2))
        lines).1).1 = lines := by
  have hA : (lines.take row).length = row := by rw [List.length_take]; omega
  have hdecomp := take_cons_drop_getD [] lines row hrow
  obtain ⟨A, l, B, hlen, rfl⟩ :
      ∃ A L B, A.length = row ∧ lines = A ++ L :: B :=
    ⟨lines.take row, lines.getD row [], lines.drop (row + 1), hA, hdecomp.symm⟩
  subst hlen
  rw [getD_append_len] at hcol
  exact insert_remove_core A l B col ls d1 d2 d3 d4 hcol hls

/-- Witness for claim C7 at a concrete input: inserting the two-line block
`xy` / `z` into the one-line buffer `ab` at row 0, byte 1, then removing it
again, restores `ab`. -/
theorem insert_then_remove_block_identity_witness :
    (HistoryAction.apply
      (.removeLines [['x', 'y'], ['z']] ⟨0, 1⟩ (⟨0, 0⟩, ⟨0, 0⟩))
      (HistoryAction.apply
        (.insertLines [['x', 'y'], ['z']] ⟨0, 1⟩ (⟨0, 0⟩, ⟨0, 0⟩))
        [['a', 'b']]).1).1 = [['a', 'b']] :=
  insert_then_remove_block_identity [['a', 'b']] 0 1 [['x', 'y'], ['z']]
    ⟨0, 0⟩ ⟨0, 0⟩ ⟨0, 0⟩ ⟨0, 0⟩ (by decide) (by decide) (by decide)

/-! ### Claim C4: cursor/selection assignment validation -/

/-- The cursor invariant stated by the specification: the row exists and
the column is at most the addressed line's character count. -/
def cursorValid (lines : Lines) (c : CursorPosition) : Prop :=
  c.row < lines.length ∧ c.col ≤ (lines.getD c.row []).length

instance (lines : Lines) (c : CursorPosition) : Decidable (cursorValid lines c) := by
  unfold cursorValid; infer_instance

/-- A one-line buffer used to evaluate `set_cursor` on invalid input. -/
def c4Start : TextArea := ⟨[['a']], ⟨0, 1⟩, none, [], [], .tabs⟩

/-- Claim C4 counterexample: assigning the out-of-range cursor `(5, 7)` to a
one-line buffer is not ignored — `set_cursor` performs no validation, the
stored cursor becomes `(5, 7)`, and the invariant
`row < lines.len() && col <= char_count(lines[row])` is broken. -/
theorem set_cursor_counterexample :
    (set_cursor c4Start ⟨5, 7⟩ false).cursor = ⟨5, 7⟩ ∧
    (set_cursor c4Start ⟨5, 7⟩ false).cursor ≠ c4Start.cursor ∧
    ¬ cursorValid (set_cursor c4Start ⟨5, 7⟩ false).lines
        (set_cursor c4Start ⟨5, 7⟩ false).cursor := by
  decide

/-- Claim C4 as amended: `set_cursor` stores the requested coordinates
unconditionally (only the selection anchor reacts to the shift flag, and
the lines are untouched), and `set_selection` likewise stores its argument
unconditionally; no coordinate validation is performed, so an invalid
assignment corrupts the invariant instead of being ignored. -/
theorem set_cursor_stores_unconditionally (s : TextArea) (c : CursorPosition)
    (shift : Bool) (sel : Option CursorPosition) :
    (set_cursor s c shift).cursor = c ∧
    (set_cursor s c shift).lines = s.lines ∧
    (set_cursor s c shift).undo_history = s.undo_history ∧
    (set_selection s sel).selection = sel :=
  ⟨rfl, rfl, rfl, rfl⟩

/-! ### Claim C2: load/save round trip (src/editor.rs, src/main.rs) -/

/-- Split a byte stream at its first line feed: the characters before it,
and — when a line feed exists — the remainder after it.  This models one
`BufRead::read_line` step of `Editor::new_from_file`. -/
def splitFirstLine : List Char → List Char × Option (List Char)
  | [] => ([], none)
  | c :: t =>
    if c = '\n' then ([], some t)
    else
      let (a, r) := splitFirstLine t
      (c :: a, r)

/-- Strip one trailing carriage return (done only for newline-terminated
reads in `new_from_file`). -/
def stripCR (raw : List Char) : List Char :=
  if raw.getLast? = some '\r' then raw.dropLast else raw

/-- The `read_line` loop of `Editor::new_from_file`: split on line feed,
strip `\r\n`, collect lines, and track whether the final read ended with a
line feed.  `fuel` dominates the stream length (each iteration consumes at
least one character), so `loadLines` below always supplies enough. -/
def loadGo : Nat → List Char → List (List Char) × Bool
  | 0, _ => ([], false)
  | fuel + 1, s =>
    match splitFirstLine s with
    | (raw, none) => if s = [] then ([], false) else ([raw], false)
    | (raw, some rest) =>
      let (ls, e) := loadGo fuel rest
      (stripCR raw :: ls, if rest = [] then true else e)

/-- All lines of a byte stream, plus the ends-in-newline flag. -/
def loadLines (s : List Char) : List (List Char) × Bool :=
  loadGo (s.length + 1) s

/-- The line sequence produced by `Editor::new_from_file` for a byte
stream: the collected lines, then one trailing empty sentinel line when
the stream ended in a line feed, then an empty line if nothing was read.
(The indent auto-detection in the same function does not affect the line
sequence and is not needed here.) -/
def new_from_file_lines (s : List Char) : Lines :=
  let (ls, e) := loadLines s
  let ls := if e then ls ++ [[]] else ls
  if ls = [] then [[]] else ls

/-- `Buffer::save` (src/main.rs): every line but the last is written with a
trailing line feed; the last line gets a line feed only if it is
non-empty. -/
def saveBytes : Lines → List Char
  | [] => []
  | [l] => l ++ (if l = [] then [] else ['\n'])
  | l :: l2 :: rest => l ++ '\n' :: saveBytes (l2 :: rest)

/-- Whether the stream contains a carriage return immediately followed by
a line feed (the one byte pattern the loader does not preserve). -/
def hasCRLF : List Char → Bool
  | [] => false
  | [_] => false
  | a :: b :: t => (a = '\r' && b = '\n') || hasCRLF (b :: t)

theorem splitFirstLine_none {s raw : List Char}
    (h : splitFirstLine s = (raw, none)) : s = raw ∧ '\n' ∉ raw := by
  induction s generalizing raw with
  | nil =>
    simp only [splitFirstLine] at h
    have h1 : ([] : List Char) = raw := congrArg Prod.fst h
    exact ⟨h1, by rw [← h1]; simp⟩
  | cons c t ih =>
    by_cases hc : c = '\n'
    · simp [splitFirstLine, hc] at h
    · simp only [splitFirstLine, if_neg hc] at h
      have h1 : c :: (splitFirstLine t).1 = raw := congrArg Prod.fst h
      have h2 : (splitFirstLine t).2 = none := congrArg Prod.snd h
      obtain ⟨ht, hmem⟩ := @ih (splitFirstLine t).1 (by rw [← h2])
      subst h1
      refine ⟨by rw [← ht], ?_⟩
      simp only [List.mem_cons, not_or]
      exact ⟨fun he => hc he.symm, hmem⟩

theorem splitFirstLine_some {s raw rest : List Char}
    (h : splitFirstLine s = (raw, some rest)) :
    s = raw ++ '\n' :: rest ∧ '\n' ∉ raw := by
  induction s generalizing raw rest with
  | nil =>
    simp only [splitFirstLine] at h
    exact absurd (congrArg Prod.snd h) (by simp)
  | cons c t ih =>
    by_cases hc : c = '\n'
    · subst hc
      simp only [splitFirstLine, if_pos rfl] at h
      have h1 : ([] : List Char) = raw := congrArg Prod.fst h
      have h2 : some t = some rest := congrArg Prod.snd h
      have h3 : t = rest := by injection h2
      rw [← h1]
      exact ⟨by rw [h3]; rfl, by simp⟩
    · simp only [splitFirstLine, if_neg hc] at h
      have h1 : c :: (splitFirstLine t).1 = raw := congrArg Prod.fst h
      have h2 : (splitFirstLine t).2 = some rest := congrArg Prod.snd h
      obtain ⟨ht, hmem⟩ := @ih (splitFirstLine t).1 rest (by rw [← h2])
      subst h1
      refine ⟨by (conv_lhs => rw [ht]); rfl, ?_⟩
      simp only [List.mem_cons, not_or]
      exact ⟨fun he => hc he.symm, hmem⟩

theorem hasCRLF_cons (x : Char) (t : List Char)
    (h : hasCRLF (x :: t) = false) : hasCRLF t = false := by
  cases t with
  | nil => rfl
  | cons y r =>
    simp only [hasCRLF, Bool.or_eq_false_iff] at h
    exact h.2

theorem hasCRLF_append (X Y : List Char)
    (h : hasCRLF (X ++ Y) = false) : hasCRLF Y = false := by
  induction X with
  | nil => exact h
  | cons x X ih => exact ih (hasCRLF_cons x (X ++ Y) h)

theorem hasCRLF_crlf : ∀ (X Y : List Char),
    hasCRLF (X ++ '\r' :: '\n' :: Y) = true
  | [], Y => by simp [hasCRLF]
  | [x], Y => by simp [hasCRLF]
  | x :: x2 :: X, Y => by
    have ih := hasCRLF_crlf (x2 :: X) Y
    simp only [List.cons_append] at ih ⊢
    simp only [hasCRLF, Bool.or_eq_true]
    exact Or.inr ih

theorem mem_of_getLast?_eq {α : Type} :
    ∀ {l : List α} {a : α}, l.getLast? = some a → a ∈ l
  | [], a, h => by simp at h
  | [x], a, h => by
    simp only [List.getLast?_singleton, Option.some.injEq] at h
    simp [h]
  | x :: y :: t, a, h => by
    have : (y :: t).getLast? = some a := by
      rwa [List.getLast?_cons_cons] at h
    exact List.mem_cons_of_mem x (mem_of_getLast?_eq this)

theorem getLast?_append_right {α : Type} :
    ∀ (X Y : List α), Y ≠ [] → (X ++ Y).getLast? = Y.getLast?
  | [], Y, _ => rfl
  | x :: X, Y, h => by
    cases X with
    | nil =>
      cases Y with
      | nil => exact absurd rfl h
      | cons y Y =>
        show (x :: y :: Y).getLast? = (y :: Y).getLast?
        rw [List.getLast?_cons_cons]
    | cons x2 X =>
      rw [List.cons_append, List.cons_append, List.getLast?_cons_cons,
        ← List.cons_append]
      exact getLast?_append_right (x2 :: X) Y h

theorem loadGo_nil (fuel : Nat) : loadGo fuel [] = ([], false) := by
  cases fuel with
  | zero => rfl
  | succ fuel => simp [loadGo, splitFirstLine]

/-- Loading a non-empty, newline-terminated, CRLF-free stream yields the
ends-in-newline flag, a non-empty line list, and — once the sentinel empty
line is appended — a line sequence that saves back to the original
stream. -/
theorem loadGo_roundtrip : ∀ (fuel : Nat) (s : List Char),
    s.length < fuel → s.getLast? = some '\n' → hasCRLF s = false →
    (loadGo fuel s).2 = true ∧ (loadGo fuel s).1 ≠ [] ∧
    saveBytes ((loadGo fuel s).1 ++ [[]]) = s := by
  intro fuel
  induction fuel with
  | zero => intro s h _ _; omega
  | succ fuel ih =>
    intro s hlen hend hcrlf
    cases hsp : splitFirstLine s with
    | mk raw o =>
      cases o with
      | none =>
        obtain ⟨rfl, hmem⟩ := splitFirstLine_none hsp
        exact absurd (mem_of_getLast?_eq hend) hmem
      | some rest =>
        obtain ⟨hdecomp, hmem⟩ := splitFirstLine_some hsp
        have hstrip : stripCR raw = raw := by
          unfold stripCR
          by_cases hr : raw.getLast? = some '\r'
          · exfalso
            have hrne : raw ≠ [] := by intro hx; rw [hx] at hr; simp at hr
            have hrsplit : raw.dropLast ++ [raw.getLast hrne] = raw :=
              List.dropLast_append_getLast hrne
            have hrlast : raw.getLast hrne = '\r' := by
              have := List.getLast?_eq_getLast raw hrne
              rw [this] at hr
              exact Option.some.inj hr
            rw [hdecomp, ← hrsplit, hrlast] at hcrlf
            have : raw.dropLast ++ ['\r'] ++ '\n' :: rest
                = raw.dropLast ++ '\r' :: '\n' :: rest := by simp
            rw [this, hasCRLF_crlf] at hcrlf
            simp at hcrlf
          · rw [if_neg hr]
        by_cases hrest : rest = []
        · subst hrest
          have hcompute : loadGo (fuel + 1) s = ([raw], true) := by
            simp only [loadGo]
            rw [hsp]
            dsimp only
            rw [loadGo_nil]
            simp [hstrip]
          rw [hcompute]
          refine ⟨rfl, by simp, ?_⟩
          simp [saveBytes, hdecomp]
        · have hrlen : rest.length < fuel := by
            rw [hdecomp] at hlen
            simp only [List.length_append, List.length_cons] at hlen
            omega
          have hrend : rest.getLast? = some '\n' := by
            rw [hdecomp, getLast?_append_right raw ('\n' :: rest) (by simp)]
              at hend
            rw [show ('\n' :: rest) = ['\n'] ++ rest from rfl,
              getLast?_append_right ['\n'] rest hrest] at hend
            exact hend
          have hrcrlf : hasCRLF rest = false := by
            rw [hdecomp] at hcrlf
            exact hasCRLF_cons '\n' rest (hasCRLF_append raw _ hcrlf)
          obtain ⟨ihe, ihne, ihsave⟩ := ih rest hrlen hrend hrcrlf
          have hcompute : loadGo (fuel + 1) s
              = (raw :: (loadGo fuel rest).1,
                 if rest = [] then true else (loadGo fuel rest).2) := by
            simp only [loadGo]
            rw [hsp]
            dsimp only
            rw [hstrip]
          rw [hcompute]
          refine ⟨by simp [hrest, ihe], by simp, ?_⟩
          obtain ⟨w, ws, hws⟩ : ∃ w ws, (loadGo fuel rest).1 = w :: ws := by
            cases h : (loadGo fuel rest).1 with
            | nil => exact absurd h ihne
            | cons w ws => exact ⟨w, ws, rfl⟩
          rw [hws] at ihsave ⊢
          simp only [List.cons_append, saveBytes, List.append_eq] at ihsave ⊢
          rw [ihsave, hdecomp]

/-- Claim C2 counterexample: the unterminated stream `abc` loads as the
single line `abc` with no sentinel, and saving writes `abc` followed by a
line feed — not the original byte stream.  The claim's assertion that a
final unterminated non-empty line gains no line feed on save is false:
`Buffer::save` appends a line feed exactly when the last line is
non-empty. -/
theorem load_save_counterexample :
    new_from_file_lines ['a', 'b', 'c'] = [['a', 'b', 'c']] ∧
    saveBytes (new_from_file_lines ['a', 'b', 'c']) = ['a', 'b', 'c', '\n'] ∧
    saveBytes (new_from_file_lines ['a', 'b', 'c']) ≠ ['a', 'b', 'c'] := by
  decide

/-- Claim C2 as amended: load-then-save is the identity exactly on byte
streams that are empty or end in a line feed and contain no
carriage-return/line-feed pair; a final unterminated non-empty line gains
a line feed on save, and a stripped carriage return is not written back.
The trailing empty sentinel line still gains no terminator of its own. -/
theorem load_save_roundtrip (s : List Char)
    (h : s = [] ∨ (s.getLast? = some '\n' ∧ hasCRLF s = false)) :
    saveBytes (new_from_file_lines s) = s := by
  rcases h with rfl | ⟨hend, hcrlf⟩
  · rfl
  · obtain ⟨he, hne, hsave⟩ :=
      loadGo_roundtrip (s.length + 1) s (by omega) hend hcrlf
    have hpair : loadGo (s.length + 1) s
        = ((loadGo (s.length + 1) s).1, true) := by rw [← he]
    unfold new_from_file_lines loadLines
    rw [hpair]
    dsimp only
    rw [if_neg (by simp)]
    exact hsave

/-- Witness for the amended claim C2 at the stream `ab` + line feed. -/
theorem load_save_roundtrip_witness :
    saveBytes (new_from_file_lines ['a', 'b', '\n']) = ['a', 'b', '\n'] :=
  load_save_roundtrip ['a', 'b', '\n'] (Or.inr ⟨by decide, by decide⟩)

/-! ### Claim C9: word-boundary scanner (src/textarea/word.rs) -/

/-- Rust `char::is_whitespace`: the Unicode `White_Space` property. -/
def rustIsWhitespace (c : Char) : Bool :=
  let n := c.toNat
  (0x09 ≤ n && n ≤ 0x0D) || n == 0x20 || n == 0x85 || n == 0xA0 ||
  n == 0x1680 || (0x2000 ≤ n && n ≤ 0x200A) || n == 0x2028 || n == 0x2029 ||
  n == 0x202F || n == 0x205F || n == 0x3000

/-- Rust `char::is_ascii_whitespace`: space, tab, line feed, form feed,
carriage return (note: not the vertical tab U+000B). -/
def isAsciiWhitespace (c : Char) : Bool :=
  let n := c.toNat
  n == 0x20 || n == 0x09 || n == 0x0A || n == 0x0C || n == 0x0D

/-- Rust `char::is_ascii_punctuation`. -/
def isAsciiPunct (c : Char) : Bool :=
  let n := c.toNat
  (0x21 ≤ n && n ≤ 0x2F) || (0x3A ≤ n && n ≤ 0x40) ||
  (0x5B ≤ n && n ≤ 0x60) || (0x7B ≤ n && n ≤ 0x7E)

/-- `str::next_word` (word.rs): from character column `start`, skip
whitespace; take the first remaining character; if it is ASCII
punctuation, return the index of the first following non-punctuation
character, otherwise the index of the first following ASCII punctuation
or ASCII whitespace character; `none` when the line ends first. -/
def next_word (s : Line) (start : Nat) : Option Nat :=
  match (s.enum.drop start).dropWhile (fun ic => rustIsWhitespace ic.2) with
  | [] => none
  | (_, c) :: rest =>
    if isAsciiPunct c then
      rest.findSome? (fun ic => if !isAsciiPunct ic.2 then some ic.1 else none)
    else
      rest.findSome? (fun ic =>
        if isAsciiPunct ic.2 || isAsciiWhitespace ic.2 then some ic.1
        else none)

/-- `str::previous_word` (word.rs): the mirror scan over the reversed
character sequence, skipping the `len - start` characters at or after the
column and returning `index + 1` at the boundary. -/
def previous_word (s : Line) (start : Nat) : Option Nat :=
  match (s.enum.reverse.drop (s.length - start)).dropWhile
      (fun ic => rustIsWhitespace ic.2) with
  | [] => none
  | (_, c) :: rest =>
    if isAsciiPunct c then
      rest.findSome? (fun ic =>
        if !isAsciiPunct ic.2 then some (ic.1 + 1) else none)
    else
      rest.findSome? (fun ic =>
        if isAsciiPunct ic.2 || isAsciiWhitespace ic.2 then some (ic.1 + 1)
        else none)

/-- Index and character of the first non-whitespace character, scanning a
suffix forward with its absolute start index. -/
def firstNonWs : Line → Nat → Option (Nat × Char)
  | [], _ => none
  | c :: t, i => if rustIsWhitespace c then firstNonWs t (i + 1) else some (i, c)

/-- Index where a character run ends: the first index whose character
satisfies `stop`, scanning a suffix forward; `none` at end of line. -/
def runEndFrom (stop : Char → Bool) : Line → Nat → Option Nat
  | [], _ => none
  | c :: t, i => if stop c then some i else runEndFrom stop t (i + 1)

/-- The run-terminator predicate for the character class of `c`: a
punctuation run ends at the first non-punctuation character; a word run
ends at punctuation or at `ws`-whitespace. -/
def classStop (ws : Char → Bool) (c : Char) : Char → Bool :=
  if isAsciiPunct c then fun x => !isAsciiPunct x
  else fun x => isAsciiPunct x || ws x

/-- The specification's description of `next_word`, parameterised by the
whitespace notion that terminates a word-class run: skip leading
whitespace from `start`; then skip the maximal run of the class found
there; return the index where that run ends, or nothing at end of line. -/
def next_word_spec (ws : Char → Bool) (s : Line) (start : Nat) : Option Nat :=
  match firstNonWs (s.drop start) start with
  | none => none
  | some (i, c) => runEndFrom (classStop ws c) (s.drop (i + 1)) (i + 1)

/-- Index and character of the last non-whitespace character strictly
before a column, scanning a reversed prefix with its absolute (descending)
start index. -/
def backFirstNonWs : Line → Nat → Option (Nat × Char)
  | [], _ => none
  | c :: t, i => if rustIsWhitespace c then backFirstNonWs t (i - 1) else some (i, c)

/-- Mirror of `runEndFrom`: scanning a reversed prefix backward, return
one past the first index whose character satisfies `stop`. -/
def backRunEnd (stop : Char → Bool) : Line → Nat → Option Nat
  | [], _ => none
  | c :: t, i => if stop c then some (i + 1) else backRunEnd stop t (i - 1)

/-- The specification's mirror description of `previous_word`. -/
def previous_word_spec (ws : Char → Bool) (s : Line) (start : Nat) :
    Option Nat :=
  match backFirstNonWs ((s.take start).reverse) (start - 1) with
  | none => none
  | some (i, c) => backRunEnd (classStop ws c) ((s.take i).reverse) (i - 1)

theorem enumFrom_drop {α : Type} :
    ∀ (s : List α) (k n : Nat), (s.enumFrom k).drop n = (s.drop n).enumFrom (k + n)
  | s, k, 0 => by simp
  | [], k, n + 1 => by simp
  | a :: t, k, n + 1 => by
    show (t.enumFrom (k + 1)).drop n = (t.drop n).enumFrom (k + (n + 1))
    rw [enumFrom_drop t (k + 1) n]
    congr 1
    omega

theorem dropWhile_enumFrom_ws (p : Char → Bool) :
    ∀ (t : Line) (k : Nat),
      (t.enumFrom k).dropWhile (fun ic => p ic.2)
        = (t.dropWhile p).enumFrom (k + (t.takeWhile p).length)
  | [], k => by simp
  | c :: t, k => by
    by_cases hc : p c
    · show ((k, c) :: t.enumFrom (k + 1)).dropWhile (fun ic => p ic.2)
        = ((c :: t).dropWhile p).enumFrom (k + ((c :: t).takeWhile p).length)
      rw [List.dropWhile_cons_of_pos (by exact hc), List.dropWhile_cons_of_pos hc,
        List.takeWhile_cons_of_pos hc]
      rw [dropWhile_enumFrom_ws p t (k + 1)]
      congr 1
      simp
      omega
    · show ((k, c) :: t.enumFrom (k + 1)).dropWhile (fun ic => p ic.2)
        = ((c :: t).dropWhile p).enumFrom (k + ((c :: t).takeWhile p).length)
      rw [List.dropWhile_cons_of_neg (by exact hc), List.dropWhile_cons_of_neg hc,
        List.takeWhile_cons_of_neg hc]
      simp

theorem firstNonWs_eq :
    ∀ (t : Line) (k : Nat),
      firstNonWs t k
        = match t.dropWhile rustIsWhitespace with
          | [] => none
          | c :: _ => some (k + (t.takeWhile rustIsWhitespace).length, c)
  | [], k => by simp [firstNonWs]
  | c :: t, k => by
    by_cases hc : rustIsWhitespace c
    · rw [show firstNonWs (c :: t) k = firstNonWs t (k + 1) from by
        simp [firstNonWs, hc]]
      rw [firstNonWs_eq t (k + 1), List.dropWhile_cons_of_pos hc,
        List.takeWhile_cons_of_pos hc]
      cases t.dropWhile rustIsWhitespace with
      | nil => rfl
      | cons d u =>
        simp only [List.length_cons]
        congr 2
        omega
    · rw [show firstNonWs (c :: t) k = some (k, c) from by simp [firstNonWs, hc]]
      rw [List.dropWhile_cons_of_neg hc, List.takeWhile_cons_of_neg hc]
      simp

theorem findSome?_enumFrom_runEnd (stop : Char → Bool) :
    ∀ (u : Line) (j : Nat),
      (u.enumFrom j).findSome?
          (fun ic => if stop ic.2 then some ic.1 else none)
        = runEndFrom stop u j
  | [], j => rfl
  | c :: u, j => by
    show (((j, c) :: u.enumFrom (j + 1)).findSome?
        (fun ic => if stop ic.2 then some ic.1 else none))
      = runEndFrom stop (c :: u) j
    rw [List.findSome?_cons]
    by_cases hc : stop c
    · simp [hc, runEndFrom]
    · simp only [hc, if_neg, Bool.false_eq_true, ite_false]
      rw [findSome?_enumFrom_runEnd stop u (j + 1)]
      simp [runEndFrom, hc]

/-- The translated `next_word` agrees everywhere with the specification
reading in which a word-class run is terminated by ASCII whitespace. -/
theorem next_word_eq_amended (s : Line) (start : Nat) :
    next_word s start = next_word_spec isAsciiWhitespace s start := by
  unfold next_word next_word_spec
  have he : s.enum.drop start = (s.drop start).enumFrom start := by
    have h0 := enumFrom_drop s 0 start
    rwa [Nat.zero_add] at h0
  rw [he, dropWhile_enumFrom_ws, firstNonWs_eq]
  cases h : (s.drop start).dropWhile rustIsWhitespace with
  | nil => simp
  | cons c u =>
    have hsplit : (s.drop start).takeWhile rustIsWhitespace ++ (c :: u)
        = s.drop start := by
      rw [← h]; exact List.takeWhile_append_dropWhile _ _
    have hu : s.drop
        (start + ((s.drop start).takeWhile rustIsWhitespace).length + 1) = u := by
      calc s.drop
            (start + ((s.drop start).takeWhile rustIsWhitespace).length + 1)
          = (s.drop start).drop
              (((s.drop start).takeWhile rustIsWhitespace).length + 1) := by
            rw [List.drop_drop]
            all_goals (congr 1 <;> omega)
        _ = (((s.drop start).takeWhile rustIsWhitespace) ++ (c :: u)).drop
              (((s.drop start).takeWhile rustIsWhitespace).length + 1) := by
            rw [hsplit]
        _ = (c :: u).drop 1 := by
            rw [List.drop_append]
        _ = u := rfl
    simp only [List.enumFrom]
    rw [hu]
    unfold classStop
    by_cases hc : isAsciiPunct c = true
    · rw [if_pos hc, if_pos hc]
      exact findSome?_enumFrom_runEnd (fun x => !isAsciiPunct x) u _
    · rw [if_neg hc, if_neg hc]
      exact findSome?_enumFrom_runEnd
        (fun x => isAsciiPunct x || isAsciiWhitespace x) u _

theorem enumFrom_append' {α : Type} :
    ∀ (xs ys : List α) (k : Nat),
      (xs ++ ys).enumFrom k = xs.enumFrom k ++ ys.enumFrom (k + xs.length)
  | [], ys, k => by simp
  | x :: xs, ys, k => by
    show (k, x) :: (xs ++ ys).enumFrom (k + 1)
        = (k, x) :: (xs.enumFrom (k + 1) ++ ys.enumFrom (k + (xs.length + 1)))
    rw [enumFrom_append' xs ys (k + 1),
      show k + 1 + xs.length = k + (xs.length + 1) from by omega]

theorem enum_snoc_reverse {α : Type} (P : List α) (c : α) :
    ((P ++ [c]).enum).reverse = (P.length, c) :: P.enum.reverse := by
  show ((P ++ [c]).enumFrom 0).reverse = (P.length, c) :: (P.enumFrom 0).reverse
  rw [enumFrom_append' P [c] 0]
  simp [List.enumFrom]

theorem enum_reverse_drop' {α : Type} (X Y : List α) :
    ((X ++ Y).enum).reverse.drop Y.length = (X.enum).reverse := by
  show (((X ++ Y).enumFrom 0).reverse).drop Y.length = ((X.enumFrom 0)).reverse
  rw [enumFrom_append' X Y 0, List.reverse_append]
  exact List.drop_left' (by simp)

theorem enum_reverse_drop (s : Line) (start : Nat) (hstart : start ≤ s.length) :
    s.enum.reverse.drop (s.length - start) = ((s.take start).enum).reverse := by
  have h := enum_reverse_drop' (s.take start) (s.drop start)
  rw [List.take_append_drop] at h
  rw [show s.length - start = (s.drop start).length from by
    simp [List.length_drop]]
  exact h

/-- Relation between the translated backward scan (reversed enumerated
prefix) and the specification's backward first-non-whitespace search,
together with the bound the indices satisfy. -/
theorem backFirstNonWs_eq (P : Line) :
    ((P.enum.reverse).dropWhile (fun ic => rustIsWhitespace ic.2)
      = match backFirstNonWs P.reverse (P.length - 1) with
        | none => []
        | some (i, c) => (i, c) :: (P.take i).enum.reverse)
    ∧ (∀ i c, backFirstNonWs P.reverse (P.length - 1) = some (i, c) →
        i < P.length) := by
  induction P using List.reverseRecOn with
  | nil => exact ⟨rfl, fun i c h => by simp [backFirstNonWs] at h⟩
  | append_singleton P c ih =>
    obtain ⟨ih1, ih2⟩ := ih
    have hrev : (P ++ [c]).reverse = c :: P.reverse := by simp
    have hlen : (P ++ [c]).length - 1 = P.length := by simp
    rw [enum_snoc_reverse, hrev, hlen]
    by_cases hc : rustIsWhitespace c = true
    · have hb : backFirstNonWs (c :: P.reverse) P.length
          = backFirstNonWs P.reverse (P.length - 1) := by
        simp [backFirstNonWs, hc]
      rw [List.dropWhile_cons_of_pos (by exact hc), hb]
      constructor
      · rw [ih1]
        cases hs : backFirstNonWs P.reverse (P.length - 1) with
        | none => rfl
        | some ic =>
          obtain ⟨i, ch⟩ := ic
          have hi : i < P.length := ih2 i ch hs
          dsimp only
          rw [List.take_append_of_le_length (Nat.le_of_lt hi)]
      · intro i ch hs
        simpa using Nat.lt_succ_of_lt (ih2 i ch hs)
    · have hb : backFirstNonWs (c :: P.reverse) P.length = some (P.length, c) := by
        simp [backFirstNonWs, hc]
      rw [List.dropWhile_cons_of_neg (by exact hc), hb]
      constructor
      · dsimp only
        rw [List.take_left]
      · intro i ch hs
        have h1 : P.length = i := congrArg Prod.fst (Option.some.inj hs)
        have h2 : i < P.length + 1 := by omega
        simpa using h2

theorem findSome?_enum_reverse_backRunEnd (stop : Char → Bool) (Q : Line) :
    (Q.enum.reverse).findSome?
        (fun ic => if stop ic.2 then some (ic.1 + 1) else none)
      = backRunEnd stop Q.reverse (Q.length - 1) := by
  induction Q using List.reverseRecOn with
  | nil => rfl
  | append_singleton Q c ih =>
    have hrev : (Q ++ [c]).reverse = c :: Q.reverse := by simp
    have hlen : (Q ++ [c]).length - 1 = Q.length := by simp
    rw [enum_snoc_reverse, hrev, hlen, List.findSome?_cons]
    by_cases hc : stop c = true
    · simp [backRunEnd, hc]
    · simp only [hc, Bool.false_eq_true, ite_false]
      rw [ih]
      simp [backRunEnd, hc]

/-- The translated `previous_word` agrees with the mirror specification
reading (ASCII-whitespace run termination) at every column within the
line. -/
theorem previous_word_eq_amended (s : Line) (start : Nat)
    (hstart : start ≤ s.length) :
    previous_word s start = previous_word_spec isAsciiWhitespace s start := by
  unfold previous_word previous_word_spec
  rw [enum_reverse_drop s start hstart]
  obtain ⟨hM1, hMb⟩ := backFirstNonWs_eq (s.take start)
  have hPlen : (s.take start).length = start := by
    rw [List.length_take]; omega
  rw [hPlen] at hM1 hMb
  rw [hM1]
  cases hb : backFirstNonWs (s.take start).reverse (start - 1) with
  | none => rfl
  | some ic =>
    obtain ⟨i, c⟩ := ic
    have hi : i < start := by
      have := hMb i c hb
      omega
    have htk : (s.take start).take i = s.take i := by
      rw [List.take_take, Nat.min_eq_left (Nat.le_of_lt hi)]
    have hQlen : (s.take i).length = i := by
      rw [List.length_take]
      have : i ≤ s.length := by omega
      omega
    dsimp only
    rw [htk]
    unfold classStop
    by_cases hc : isAsciiPunct c = true
    · rw [if_pos hc, if_pos hc]
      rw [findSome?_enum_reverse_backRunEnd (fun x => !isAsciiPunct x) (s.take i),
        hQlen]
    · rw [if_neg hc, if_neg hc]
      rw [findSome?_enum_reverse_backRunEnd
        (fun x => isAsciiPunct x || isAsciiWhitespace x) (s.take i), hQlen]

/-- The embedded scanner reproduces the unit tests of word.rs. -/
theorem word_scanner_rust_unit_tests :
    next_word [' ', ' ', ' ', 'a', 'b', 'c', ' '] 0 = some 6 ∧
    next_word [' ', ' ', ' ', 'a', '!', 'b', 'c', ' '] 0 = some 4 ∧
    next_word [' ', ' ', ' ', '!', '!', 'b', 'c', ' '] 0 = some 5 ∧
    next_word [' ', ' ', ' ', '!', '!', ' ', ' ', ' '] 0 = some 5 ∧
    previous_word [' ', ' ', ' ', 'a', 'b', 'c', ' ', ' '] 8 = some 3 ∧
    previous_word [' ', ' ', ' ', 'a', '!', 'b', 'c', ' '] 8 = some 5 ∧
    previous_word [' ', ' ', ' ', 'b', 'c', '!', '!', ' '] 8 = some 5 ∧
    previous_word [' ', ' ', ' ', '!', '!', ' ', ' ', ' '] 8 = some 3 := by
  decide

/-- Claim C9 counterexample: the claim's single notion of "whitespace" (the
same whitespace that the leading skip uses, i.e. Rust `char::is_whitespace`)
predicts that on the line `a`, vertical-tab, `b` the word run starting at
column 0 ends at index 1 (the vertical tab U+000B is whitespace); the code
terminates a word run only at ASCII whitespace or ASCII punctuation, so it
scans to the end of the line and returns nothing. -/
theorem word_boundary_counterexample :
    next_word ['a', '\x0B', 'b'] 0 = none ∧
    next_word_spec rustIsWhitespace ['a', '\x0B', 'b'] 0 = some 1 ∧
    next_word ['a', '\x0B', 'b'] 0
      ≠ next_word_spec rustIsWhitespace ['a', '\x0B', 'b'] 0 := by
  decide

/-- Claim C9 as amended: `next_word(col)` skips leading (Unicode)
whitespace from `col`, then skips the maximal run of the character class
found there — ASCII punctuation, or everything else, a run of the latter
class being terminated only by ASCII punctuation or ASCII whitespace (not
by non-ASCII whitespace or the vertical tab) — and returns the index where
that run ends, or nothing if the end of line is reached first;
`previous_word(col)` is the mirror operation scanning backward from `col`
(for columns within the line). -/
theorem word_boundary_amended :
    (∀ (s : Line) (start : Nat),
      next_word s start = next_word_spec isAsciiWhitespace s start) ∧
    (∀ (s : Line) (start : Nat), start ≤ s.length →
      previous_word s start = previous_word_spec isAsciiWhitespace s start) :=
  ⟨next_word_eq_amended, previous_word_eq_amended⟩

/-- Witness for the amended claim C9 at the line `a b`. -/
theorem word_boundary_amended_witness :
    previous_word ['a', ' ', 'b'] 3
      = previous_word_spec isAsciiWhitespace ['a', ' ', 'b'] 3 ∧
    next_word ['a', ' ', 'b'] 0
      = next_word_spec isAsciiWhitespace ['a', ' ', 'b'] 0 :=
  ⟨word_boundary_amended.2 ['a', ' ', 'b'] 3 (by decide),
   word_boundary_amended.1 ['a', ' ', 'b'] 0⟩

/-! ### Search engine (claims C3 and C6)

The `regex` crate is an external collaborator; it is modelled for literal
patterns: a match of `p` is an occurrence of `p` as a contiguous
subsequence, `find` takes the leftmost one, `find_at` the leftmost one
starting at or after a byte offset (and panics when the offset exceeds the
haystack length), and `find_iter` enumerates matches left to right without
overlap.  Fuel arguments dominate the number of iterations (each step
advances the position by at least one), so the wrappers always supply
enough. -/

def findFromGo (p s : Line) : Nat → Nat → Option Nat
  | 0, _ => none
  | fuel + 1, i =>
    if i + p.length ≤ s.length then
      if p.isPrefixOf (s.drop i) then some i
      else findFromGo p s fuel (i + 1)
    else none

/-- `Regex::find_at` for a literal pattern: the first occurrence starting
at or after byte `start` (no panic modelling here; see `find_atE`). -/
def find_at (p s : Line) (start : Nat) : Option Nat :=
  findFromGo p s (s.length + 1 - start) start

/-- `Regex::find_at` including its panic condition: the regex crate panics
when `start > haystack.len()`. -/
def find_atE (p s : Line) (start : Nat) : Except String (Option Nat) :=
  if start > s.length then .error "find_at panic: start exceeds haystack length"
  else .ok (find_at p s start)

def findIterGo (p s : Line) : Nat → Nat → List Nat
  | 0, _ => []
  | fuel + 1, i =>
    match find_at p s i with
    | none => []
    | some j => j :: findIterGo p s fuel (j + max p.length 1)

/-- `Regex::find_iter` collected into a list of match start offsets. -/
def find_iter_list (p s : Line) : List Nat := findIterGo p s (s.length + 1) 0

/-- `find_iter(..).last()`. -/
def lastMatch (p s : Line) : Option Nat := (find_iter_list p s).getLast?

/-- `str::split_at_checked` (byte boundaries always hold in this model). -/
def splitAtCheckedStr (l : Line) (i : Nat) : Option (Line × Line) :=
  if i ≤ l.length then some (l.take i, l.drop i) else none

/-- `slice::split_at_checked` for the line vector. -/
def splitAtCheckedVec (ls : Lines) (i : Nat) : Option (Lines × Lines) :=
  if i ≤ ls.length then some (ls.take i, ls.drop i) else none

/-- `TextArea::search_forward`: look for a match starting at byte
`cursor.col + 1` on the cursor row, else the first match on the first
subsequent row that has one; match spans are reported as (start, end)
positions.  `Except.error` models the `Regex::find_at` panic that fires
when `cursor.col + 1` exceeds the cursor line's length. -/
def search_forward (lines : Lines) (p : Line) (cursor : CursorPosition) :
    Except String (Option (CursorPosition × CursorPosition)) :=
  match lines.get? cursor.row with
  | none => .ok none
  | some cursor_line =>
    match splitAtCheckedVec lines (cursor.row + 1) with
    | none => .ok none
    | some (_, lines_after) =>
      match find_atE p cursor_line (cursor.col + 1) with
      | .error e => .error e
      | .ok (some m) =>
        .ok (some (⟨cursor.row, m⟩, ⟨cursor.row, m + p.length⟩))
      | .ok none =>
        match (lines_after.enum).findSome?
            (fun il => (find_at p il.2 0).map (fun m => (il.1, m))) with
        | some (i, m) =>
          .ok (some (⟨cursor.row + 1 + i, m⟩, ⟨cursor.row + 1 + i, m + p.length⟩))
        | none => .ok none

/-- `TextArea::search_backward`: take the last match within the cursor
line split at byte `cursor.col - 1` (saturating), else scan the rows
before the cursor in reverse order and take the last match on the first
row that has one. -/
def search_backward (lines : Lines) (p : Line) (cursor : CursorPosition) :
    Option (CursorPosition × CursorPosition) :=
  match lines.get? cursor.row with
  | none => none
  | some line =>
    match splitAtCheckedStr line (cursor.col - 1) with
    | none => none
    | some (cursor_line, _) =>
      match splitAtCheckedVec lines cursor.row with
      | none => none
      | some (lines_before, _) =>
        match lastMatch p cursor_line with
        | some m => some (⟨cursor.row, m⟩, ⟨cursor.row, m + p.length⟩)
        | none =>
          match (lines_before.reverse.enum).findSome?
              (fun il => (lastMatch p il.2).map
                (fun m => (cursor.row - il.1 - 1, m))) with
          | some (r, m) => some (⟨r, m⟩, ⟨r, m + p.length⟩)
          | none => none

/-- Downward row scan used by the specification reading of backward
search: check row `r - 1`, then `r - 2`, ... down to row 0, returning the
last match of the first row that has one. -/
def bwdRowScan (p : Line) (lines : Lines) : Nat → Option (Nat × Nat)
  | 0 => none
  | r + 1 =>
    match lastMatch p (lines.getD r []) with
    | some m => some (r, m)
    | none => bwdRowScan p lines r

/-- Backward search as the amended claim describes it: candidates on the
cursor row are matches lying wholly within the prefix of length
`cursor.col - 1` (saturating; the code's off-by-one), then rows above in
reverse order, last match of the first row with one; nothing otherwise. -/
def search_backwardA (lines : Lines) (p : Line) (cursor : CursorPosition) :
    Option (CursorPosition × CursorPosition) :=
  match lines.get? cursor.row with
  | none => none
  | some line =>
    if cursor.col - 1 ≤ line.length then
      match lastMatch p (line.take (cursor.col - 1)) with
      | some m => some (⟨cursor.row, m⟩, ⟨cursor.row, m + p.length⟩)
      | none =>
        match bwdRowScan p lines cursor.row with
        | some (r, m) => some (⟨r, m⟩, ⟨r, m + p.length⟩)
        | none => none
    else none

/-- Backward search as claim C3 states it: the scanned prefix of the
cursor row has length `cursor.col` (every match wholly before the cursor
column is a candidate). -/
def search_backwardClaimed (lines : Lines) (p : Line)
    (cursor : CursorPosition) : Option (CursorPosition × CursorPosition) :=
  match lines.get? cursor.row with
  | none => none
  | some line =>
    match lastMatch p (line.take cursor.col) with
    | some m => some (⟨cursor.row, m⟩, ⟨cursor.row, m + p.length⟩)
    | none =>
      match bwdRowScan p lines cursor.row with
      | some (r, m) => some (⟨r, m⟩, ⟨r, m + p.length⟩)
      | none => none

theorem take_succ_getD {α : Type} (d : α) :
    ∀ (l : List α) (i : Nat), i < l.length →
      l.take (i + 1) = l.take i ++ [l.getD i d]
  | a :: t, 0, _ => rfl
  | a :: t, i + 1, h =>
    congrArg (a :: ·) (take_succ_getD d t i (Nat.lt_of_succ_lt_succ h))
  | [], i, h => absurd h (by simp)

theorem findSome?_enumFrom_shift {α β : Type} (f : Nat → α → Option β) :
    ∀ (L : List α) (k : Nat),
      (L.enumFrom (k + 1)).findSome? (fun q => f q.1 q.2)
        = (L.enumFrom k).findSome? (fun q => f (q.1 + 1) q.2)
  | [], k => rfl
  | a :: t, k => by
    show (((k + 1, a) :: t.enumFrom (k + 2)).findSome? (fun q => f q.1 q.2))
      = (((k, a) :: t.enumFrom (k + 1)).findSome? (fun q => f (q.1 + 1) q.2))
    rw [List.findSome?_cons, List.findSome?_cons]
    cases f (k + 1) a with
    | some b => rfl
    | none =>
      simp only []
      exact findSome?_enumFrom_shift f t (k + 1)

/-- The reverse-enumerate-and-find scan over the rows before the cursor
equals the downward row recursion. -/
theorem revScan_eq_bwdRowScan (p : Line) (lines : Lines) :
    ∀ (r : Nat), r ≤ lines.length →
      ((lines.take r).reverse.enum).findSome?
          (fun il => (lastMatch p il.2).map (fun m => (r - il.1 - 1, m)))
        = bwdRowScan p lines r := by
  intro r
  induction r with
  | zero => intro _; rfl
  | succ r ih =>
    intro h
    have hr : r < lines.length := by omega
    rw [take_succ_getD [] lines r hr, List.reverse_append]
    simp only [List.reverse_cons, List.reverse_nil, List.nil_append,
      List.singleton_append, List.enum_cons, List.findSome?_cons]
    cases hm : lastMatch p (lines.getD r []) with
    | some m =>
      simp only [Option.map_some', Nat.add_sub_cancel, Nat.sub_zero]
      show some (r, m)
        = match lastMatch p (lines.getD r []) with
          | some m => some (r, m)
          | none => bwdRowScan p lines r
      rw [hm]
    | none =>
      simp only [Option.map_none']
      rw [findSome?_enumFrom_shift
        (fun i x => (lastMatch p x).map (fun m => (r + 1 - i - 1, m)))
        ((lines.take r).reverse) 0]
      simp only [Nat.succ_sub_succ_eq_sub]
      rw [show ((lines.take r).reverse.enumFrom 0)
          = (lines.take r).reverse.enum from rfl]
      rw [ih (by omega)]
      show bwdRowScan p lines r
        = match lastMatch p (lines.getD r []) with
          | some m => some (r, m)
          | none => bwdRowScan p lines r
      rw [hm]

/-- Claim C3 as amended: backward search scans the cursor row's prefix of
length `cursor.col - 1` (saturating) — not `cursor.col` — taking the last
match wholly inside it, then the rows above in reverse order, returning
the last match on the first such row that has one, and nothing (no
wraparound) otherwise.  The translation agrees with this reading on every
input. -/
theorem search_backward_matches_amended_spec (lines : Lines) (p : Line)
    (cursor : CursorPosition) :
    search_backward lines p cursor = search_backwardA lines p cursor := by
  unfold search_backward search_backwardA
  cases hg : lines.get? cursor.row with
  | none => rfl
  | some line =>
    have hrow : cursor.row < lines.length := by
      rcases List.get?_eq_some.mp hg with ⟨h, _⟩
      exact h
    unfold splitAtCheckedStr splitAtCheckedVec
    dsimp only
    by_cases hcol : cursor.col - 1 ≤ line.length
    · rw [if_pos hcol, if_pos (Nat.le_of_lt hrow), if_pos hcol]
      dsimp only
      cases hm : lastMatch p (line.take (cursor.col - 1)) with
      | some m => rfl
      | none =>
        rw [revScan_eq_bwdRowScan p lines cursor.row (Nat.le_of_lt hrow)]
    · rw [if_neg hcol, if_neg hcol]

/-- Claim C3 counterexample: line `ab`, pattern `b`, cursor at `(0, 2)`.
The claim predicts that the match `b` at columns `[1, 2)` — wholly within
the prefix of length `cursor.col = 2` — is a candidate and is returned;
the code splits the line at `cursor.col - 1 = 1`, scans only `a`, finds
nothing, and returns nothing. -/
theorem search_backward_counterexample :
    search_backward [['a', 'b']] ['b'] ⟨0, 2⟩ = none ∧
    search_backwardClaimed [['a', 'b']] ['b'] ⟨0, 2⟩
      = some (⟨0, 1⟩, ⟨0, 2⟩) ∧
    search_backward [['a', 'b']] ['b'] ⟨0, 2⟩
      ≠ search_backwardClaimed [['a', 'b']] ['b'] ⟨0, 2⟩ := by
  decide

/-- Claim C6 evaluated at the failing input: line `ab`, pattern `b`,
cursor at end of line `(0, 2)`.  A match exists earlier in the buffer (at
column 1), none after the cursor, so the claim says `search_forward`
returns nothing; instead the code calls `Regex::find_at` with start
`cursor.col + 1 = 3 > 2` — which panics.  At the neighbouring in-range
cursor `(0, 1)` the function does return nothing (no wraparound). -/
theorem search_forward_panic_code_bug :
    search_forward [['a', 'b']] ['b'] ⟨0, 2⟩
      = .error "find_at panic: start exceeds haystack length" ∧
    find_at ['b'] ['a', 'b'] 0 = some 1 ∧
    search_forward [['a', 'b']] ['b'] ⟨0, 1⟩ = .ok none :=
  ⟨rfl, by decide, rfl⟩

/-! ### Claim C5: quote characters and auto-pairing (src/editor.rs) -/

/-- `CharSlice::char_slice(a..b)` (char_slice.rs): out-of-range bounds
clamp (`List.take`/`List.drop` have exactly the source's clamping
behaviour at the character level). -/
def char_slice (l : Line) (a b : Nat) : Line := (l.take b).drop a

/-- `char_slice(a..)`. -/
def char_slice_from (l : Line) (a : Nat) : Line := l.drop a

/-- `TextArea::selected_text`, extraction only (the `unselect` flag is
applied at the call sites): one fragment on a single row, otherwise the
first row's suffix, the interior rows verbatim, and the last row's
prefix. -/
def selected_text_value (s : TextArea) : Option (List Line) :=
  match s.selection with
  | none => none
  | some selection =>
    let cursor := s.cursor
    let (st, en) :=
      if cursor.blt selection then (cursor, selection) else (selection, cursor)
    if st.row = en.row then
      some [char_slice (s.lines.getD st.row []) st.col en.col]
    else
      some (char_slice_from (s.lines.getD st.row []) st.col ::
        ((s.lines.drop (st.row + 1)).take (en.row - (st.row + 1))
          ++ [(s.lines.getD en.row []).take en.col]))

/-- The closing delimiter for an opening one (`Editor::input`). -/
def closing_char (c : Char) : Char :=
  if c = '(' then ')'
  else if c = '[' then ']'
  else if c = '{' then '}'
  else if c = '\'' then '\''
  else '"'

/-- The generic `Key::Char` arm of `TextArea::input` with no selection:
one `do_action` inserting the character at the cursor. -/
def plain_char_insert (s : TextArea) (q : Char) : TextArea :=
  let cursor := s.cursor
  let (s1, cur) := do_action s (.insertChar q
    (BytePosition.from_line cursor (s.lines.getD cursor.row []))
    (cursor, ⟨cursor.row, cursor.col + 1⟩))
  set_cursor s1 cur false

/-- The generic `Key::Char` arm of `TextArea::input`: with a selection,
remove the selected text and chain-insert the character; without one,
insert the character. -/
def char_key_input (s : TextArea) (q : Char) : TextArea :=
  let cursor := s.cursor
  match s.selection, selected_text_value s with
  | some selection, some st =>
    let s0 := set_selection s none
    let start := if cursor.blt selection then cursor else selection
    let (s1, cur1) := do_action s0 (.removeLines st
      (BytePosition.from_line start (s0.lines.getD start.row []))
      (cursor, start))
    let (s2, cur2) := do_action_chain s1 (.insertChar q
      (BytePosition.from_line cur1 (s1.lines.getD cur1.row []))
      (cur1, ⟨cur1.row, cur1.col + 1⟩))
    set_cursor s2 cur2 false
  | _, _ => plain_char_insert s q

/-- The auto-pair arm of `Editor::input`: insert the opening delimiter and
its closer as two chained single-character inserts; with a selection, the
open goes before the earlier endpoint and the close after the later one
(byte offsets computed against `lines[cursor.row]`, as in the source). -/
def pair_char_input (s : TextArea) (q : Char) : TextArea :=
  let cursor := s.cursor
  let closing := closing_char q
  match s.selection with
  | some selection =>
    let (c1, c2) :=
      if cursor.blt selection then
        (cursor, (⟨selection.row, selection.col + 1⟩ : CursorPosition))
      else (selection, (⟨cursor.row, cursor.col + 1⟩ : CursorPosition))
    let (cursor_after, selection_after) :=
      if cursor.row = selection.row then
        ((⟨cursor.row, cursor.col + 1⟩ : CursorPosition),
         (⟨selection.row, selection.col + 1⟩ : CursorPosition))
      else if cursor.blt selection then
        ((⟨cursor.row, cursor.col + 1⟩ : CursorPosition), selection)
      else (cursor, (⟨selection.row, selection.col + 1⟩ : CursorPosition))
    let (s1, cur1) := do_action s (.insertChar q
      (BytePosition.from_line c1 (s.lines.getD cursor.row []))
      (cursor, cursor_after))
    let (s2, cur2) := do_action_chain s1 (.insertChar closing
      (BytePosition.from_line c2 (s1.lines.getD cur1.row []))
      (cur1, cur1))
    let s3 := set_cursor s2 cur2 false
    set_selection s3 (some selection_after)
  | none =>
    let (s1, cur1) := do_action s (.insertChar q
      (BytePosition.from_line cursor (s.lines.getD cursor.row []))
      (cursor, ⟨cursor.row, cursor.col + 1⟩))
    let (s2, cur2) := do_action_chain s1 (.insertChar closing
      (BytePosition.from_line cur1 (s1.lines.getD cur1.row []))
      (cur1, cur1))
    set_cursor s2 cur2 false

/-- `Editor::input` restricted to an unmodified printable `Key::Char`
press: the auto-pair arm fires for an opening delimiter unless it is a
single quote with no active selection; every other character falls through
to the textarea's generic character arm.  (The arms before these require
other keys or modifier flags.) -/
def editor_char_input (s : TextArea) (q : Char) : TextArea :=
  if (q = '(' || q = '[' || q = '{' || q = '\'' || q = '"')
      && !(q = '\'' && s.selection.isNone) then
    pair_char_input s q
  else
    char_key_input s q

/-- An empty one-line buffer with no selection. -/
def c5Start : TextArea :=
  ⟨[[]], ⟨0, 0⟩, none, [], [], .spaces [' ', ' ', ' ', ' ']⟩

/-- Claim C5 counterexample: with no selection, typing a double quote is
not inserted as one ordinary character — the auto-pair arm fires (only the
single quote is exempted), yielding two quote characters and two history
entries; a single quote does produce a single ordinary character. -/
theorem quote_pairing_counterexample :
    (editor_char_input c5Start '"').lines = [['"', '"']] ∧
    (editor_char_input c5Start '"').lines ≠ [['"']] ∧
    (editor_char_input c5Start '"').undo_history.length = 2 ∧
    (editor_char_input c5Start '\'').lines = [['\'']] ∧
    (editor_char_input c5Start '\'').undo_history.length = 1 := by
  decide

theorem getD_set_self' {α : Type} (d : α) :
    ∀ (l : List α) (i : Nat) (x : α), i < l.length → (l.set i x).getD i d = x
  | _ :: _, 0, _, _ => rfl
  | a :: t, i + 1, x, h => getD_set_self' d t i x (Nat.lt_of_succ_lt_succ h)
  | [], i, x, h => absurd h (by simp)

theorem byte_index_le (l : Line) (col : Nat) : byte_index l col ≤ l.length :=
  Nat.min_le_right col l.length

theorem length_strInsert (l : Line) (b : Nat) (q : Char) (hb : b ≤ l.length) :
    (strInsert l b q).length = l.length + 1 := by
  unfold strInsert
  simp [List.length_take, List.length_drop]
  omega

theorem byte_index_strInsert (l : Line) (q : Char) (col : Nat) :
    byte_index (strInsert l (byte_index l col) q) (col + 1)
      = byte_index l col + 1 := by
  have h := length_strInsert l (byte_index l col) q (byte_index_le l col)
  unfold byte_index at h ⊢
  rw [h]
  omega

/-- Two adjacent single-character inserts produce the pair side by side. -/
theorem strInsert_adjacent (l : Line) (q q' : Char) (b : Nat)
    (hb : b ≤ l.length) :
    strInsert (strInsert l b q) (b + 1) q'
      = l.take b ++ q :: q' :: l.drop b := by
  unfold strInsert
  have hlen : (l.take b).length = b := by rw [List.length_take]; omega
  have h1 : (l.take b ++ q :: l.drop b).take (b + 1) = l.take b ++ [q] := by
    rw [show l.take b ++ q :: l.drop b = (l.take b ++ [q]) ++ l.drop b
      from by simp]
    exact List.take_left' (by simp [hlen])
  have h2 : (l.take b ++ q :: l.drop b).drop (b + 1) = l.drop b := by
    rw [show l.take b ++ q :: l.drop b = (l.take b ++ [q]) ++ l.drop b
      from by simp]
    exact List.drop_left' (by simp [hlen])
  rw [h1, h2]
  simp

/-- A second insert one past a later column wraps the characters between
the two offsets. -/
theorem strInsert_wrap (l : Line) (q q' : Char) (a b : Nat)
    (hab : a ≤ b) (hb : b ≤ l.length) :
    strInsert (strInsert l a q) (b + 1) q'
      = l.take a ++ q :: ((l.take b).drop a ++ q' :: l.drop b) := by
  unfold strInsert
  have hlen : (l.take a).length = a := by rw [List.length_take]; omega
  have h1 : (l.take a ++ q :: l.drop a).take (b + 1)
      = l.take a ++ q :: (l.drop a).take (b - a) := by
    rw [List.take_append_eq_append_take, hlen,
      List.take_of_length_le (by omega : (l.take a).length ≤ b + 1)]
    congr 1
    rw [show b + 1 - a = (b - a) + 1 from by omega]
    rfl
  have h2 : (l.take a ++ q :: l.drop a).drop (b + 1)
      = (l.drop a).drop (b - a) := by
    rw [List.drop_append_eq_append_drop, hlen,
      List.drop_eq_nil_of_le (by omega : (l.take a).length ≤ b + 1)]
    rw [show b + 1 - a = (b - a) + 1 from by omega]
    rfl
  rw [h1, h2]
  have h3 : (l.drop a).take (b - a) = (l.take b).drop a := by
    rw [List.drop_take]
  have h4 : (l.drop a).drop (b - a) = l.drop b := by
    rw [List.drop_drop]
    congr 1
    omega
  rw [h3, h4]
  simp

/-- With no selection, a typed single quote takes the ordinary-character
path: exactly one insert action at the cursor's byte offset. -/
theorem editor_single_quote_plain (s : TextArea) (hsel : s.selection = none) :
    (editor_char_input s '\'').lines
      = modifyLine s.lines s.cursor.row
          (fun l => strInsert l (byte_index l s.cursor.col) '\'') ∧
    (editor_char_input s '\'').undo_history
      = (HistoryAction.insertChar '\''
          (BytePosition.from_line s.cursor (s.lines.getD s.cursor.row []))
          (s.cursor, ⟨s.cursor.row, s.cursor.col + 1⟩), false)
          :: s.undo_history := by
  unfold editor_char_input
  rw [hsel]
  rw [if_neg (by decide)]
  unfold char_key_input
  rw [hsel]
  dsimp only
  unfold plain_char_insert do_action HistoryAction.apply set_cursor
    BytePosition.from_line modifyLine
  exact ⟨rfl, rfl⟩

/-- With no selection, a typed double quote takes the auto-pair path: the
opening and closing quotes are inserted adjacently at the cursor's byte
offset, as two recorded actions. -/
theorem editor_double_quote_pairs (s : TextArea) (hsel : s.selection = none)
    (hrow : s.cursor.row < s.lines.length) :
    (editor_char_input s '"').lines
      = modifyLine s.lines s.cursor.row
          (fun l => l.take (byte_index l s.cursor.col) ++ '"' :: '"' ::
            l.drop (byte_index l s.cursor.col)) ∧
    (editor_char_input s '"').undo_history.length
      = s.undo_history.length + 2 := by
  unfold editor_char_input
  rw [hsel]
  rw [if_pos (by decide)]
  unfold pair_char_input
  rw [hsel]
  dsimp only
  rw [show closing_char '"' = '"' from rfl]
  unfold do_action do_action_chain HistoryAction.apply set_cursor
    BytePosition.from_line modifyLine
  dsimp only
  constructor
  · rw [getD_set_self' [] s.lines s.cursor.row _ hrow]
    rw [byte_index_strInsert]
    rw [List.set_set]
    rw [strInsert_adjacent _ '"' '"' _
      (byte_index_le (s.lines.getD s.cursor.row []) s.cursor.col)]
  · simp

theorem byte_index_of_le (l : Line) (col : Nat) (h : col ≤ l.length) :
    byte_index l col = col :=
  Nat.min_eq_left h

theorem byte_index_strInsert_of_le (l : Line) (q : Char) (a b : Nat)
    (ha : a ≤ l.length) (hb : b ≤ l.length) :
    byte_index (strInsert l a q) (b + 1) = b + 1 := by
  unfold byte_index
  rw [length_strInsert l a q ha]
  omega

/-- With a single-row selection, typing a delimiter whose closer is itself
wraps the selected range: open before the earlier endpoint, close right
after the later endpoint, as two recorded actions. -/
theorem pair_char_input_selection_wraps (s : TextArea) (sel : CursorPosition)
    (q : Char) (hsel : s.selection = some sel) (hrow : sel.row = s.cursor.row)
    (hclose : closing_char q = q) (hrl : s.cursor.row < s.lines.length)
    (hcc : s.cursor.col ≤ (s.lines.getD s.cursor.row []).length)
    (hsc : sel.col ≤ (s.lines.getD s.cursor.row []).length) :
    (pair_char_input s q).lines
      = s.lines.set s.cursor.row
          ((s.lines.getD s.cursor.row []).take (min s.cursor.col sel.col)
            ++ q :: (((s.lines.getD s.cursor.row []).take
                (max s.cursor.col sel.col)).drop (min s.cursor.col sel.col)
              ++ q :: (s.lines.getD s.cursor.row []).drop
                  (max s.cursor.col sel.col))) ∧
    (pair_char_input s q).undo_history.length
      = s.undo_history.length + 2 := by
  unfold pair_char_input
  rw [hsel]
  dsimp only
  rw [hclose]
  have hrr : s.cursor.row = sel.row := hrow.symm
  by_cases hlt : s.cursor.blt sel = true
  · have hcl : s.cursor.col < sel.col := by
      unfold CursorPosition.blt at hlt
      rw [hrr] at hlt
      simpa using hlt
    rw [if_pos hlt, if_pos hrr]
    unfold do_action do_action_chain HistoryAction.apply set_cursor
      set_selection BytePosition.from_line modifyLine
    dsimp only
    rw [hrow]
    rw [byte_index_of_le _ _ hcc]
    rw [getD_set_self' [] s.lines s.cursor.row _ hrl]
    rw [byte_index_strInsert_of_le _ _ _ _ hcc hsc]
    rw [List.set_set]
    rw [strInsert_wrap _ _ _ _ _ (Nat.le_of_lt hcl) hsc]
    rw [Nat.min_eq_left (Nat.le_of_lt hcl), Nat.max_eq_right (Nat.le_of_lt hcl)]
    exact ⟨rfl, by simp⟩
  · have hcl : sel.col ≤ s.cursor.col := by
      unfold CursorPosition.blt at hlt
      rw [hrr] at hlt
      simpa using hlt
    rw [if_neg hlt, if_pos hrr]
    unfold do_action do_action_chain HistoryAction.apply set_cursor
      set_selection BytePosition.from_line modifyLine
    dsimp only
    rw [hrow]
    rw [byte_index_of_le _ _ hsc]
    rw [getD_set_self' [] s.lines s.cursor.row _ hrl]
    rw [byte_index_strInsert_of_le _ _ _ _ hsc hcc]
    rw [List.set_set]
    rw [strInsert_wrap _ _ _ _ _ hcl hcc]
    rw [Nat.min_eq_right hcl, Nat.max_eq_left hcl]
    exact ⟨rfl, by simp⟩

/-- A one-line buffer `abc` with cursor at column 1 and a same-row
selection anchor at column 3. -/
def c5T : TextArea :=
  ⟨[['a', 'b', 'c']], ⟨0, 1⟩, some ⟨0, 3⟩, [], [],
    .spaces [' ', ' ', ' ', ' ']⟩

/-- Claim C5 as amended: a single quote typed with no selection is
inserted as one ordinary character with exactly one recorded action; a
double quote typed with no selection still fires the auto-pair arm,
inserting the pair adjacently at the cursor as two recorded actions; and
either quote typed with an active single-row selection wraps the selected
range — open before the earlier endpoint, close right after the later
one — as two recorded actions. -/
theorem quote_pairing_amended (s t : TextArea) (sel : CursorPosition)
    (q : Char) (hq : q = '\'' ∨ q = '"')
    (hselN : s.selection = none) (hsrow : s.cursor.row < s.lines.length)
    (hselS : t.selection = some sel) (hrow : sel.row = t.cursor.row)
    (hrl : t.cursor.row < t.lines.length)
    (hcc : t.cursor.col ≤ (t.lines.getD t.cursor.row []).length)
    (hsc : sel.col ≤ (t.lines.getD t.cursor.row []).length) :
    (editor_char_input s '\'').lines
      = modifyLine s.lines s.cursor.row
          (fun l => strInsert l (byte_index l s.cursor.col) '\'') ∧
    (editor_char_input s '\'').undo_history.length
      = s.undo_history.length + 1 ∧
    (editor_char_input s '"').lines
      = modifyLine s.lines s.cursor.row
          (fun l => l.take (byte_index l s.cursor.col) ++ '"' :: '"' ::
            l.drop (byte_index l s.cursor.col)) ∧
    (editor_char_input s '"').undo_history.length
      = s.undo_history.length + 2 ∧
    (editor_char_input t q).lines
      = t.lines.set t.cursor.row
          ((t.lines.getD t.cursor.row []).take (min t.cursor.col sel.col)
            ++ q :: (((t.lines.getD t.cursor.row []).take
                (max t.cursor.col sel.col)).drop (min t.cursor.col sel.col)
              ++ q :: (t.lines.getD t.cursor.row []).drop
                  (max t.cursor.col sel.col))) ∧
    (editor_char_input t q).undo_history.length
      = t.undo_history.length + 2 := by
  have hpair : editor_char_input t q = pair_char_input t q := by
    unfold editor_char_input
    rw [if_pos (by rcases hq with h | h <;> subst h <;> simp [hselS])]
  have hclose : closing_char q = q := by
    rcases hq with h | h <;> subst h <;> rfl
  obtain ⟨ha1, ha2⟩ := editor_single_quote_plain s hselN
  obtain ⟨hb1, hb2⟩ := editor_double_quote_pairs s hselN hsrow
  obtain ⟨hc1, hc2⟩ :=
    pair_char_input_selection_wraps t sel q hselS hrow hclose hrl hcc hsc
  refine ⟨ha1, ?_, hb1, hb2, ?_, ?_⟩
  · rw [ha2]; rfl
  · rw [hpair]; exact hc1
  · rw [hpair]; exact hc2

theorem quote_pairing_amended_witness :
    (editor_char_input c5T '"').lines = [['a', '"', 'b', 'c', '"']] ∧
    (editor_char_input c5T '"').undo_history.length = 2 ∧
    (editor_char_input c5Start '\'').lines = [['\'']] ∧
    (editor_char_input c5Start '\'').undo_history.length = 1 := by
  have h := quote_pairing_amended c5Start c5T ⟨0, 3⟩ '"' (Or.inr rfl)
    rfl (by decide) rfl rfl (by decide) (by decide) (by decide)
  exact ⟨h.2.2.2.2.1.trans (by decide), h.2.2.2.2.2,
    h.1.trans (by decide), h.2.1⟩

/-! ### Claim C8: the Back-Tab (outdent) command (src/editor.rs) -/

/-- Rust `str::starts_with(char)`. -/
def startsWithChar (l : Line) (c : Char) : Bool :=
  match l with
  | [] => false
  | x :: _ => x == c

/-- The width of one indent unit: one tab, or the space run's length. -/
def indent_width (ind : Indent) : Nat :=
  match ind with
  | .tabs => 1
  | .spaces sp => sp.length

/-- The per-row guard of the Back-Tab branch: in tab mode the row must
start with a tab; in space mode it must start with a tab OR the configured
space run (the source tests `starts_with('\t') || starts_with(spaces)` in
both space-mode arms). -/
def outdent_test (ind : Indent) (l : Line) : Bool :=
  match ind with
  | .tabs => startsWithChar l '\t'
  | .spaces sp => startsWithChar l '\t' || sp.isPrefixOf l

/-- The action the Back-Tab branch builds for a passing row: remove the
leading tab character, or remove a block equal to the space run, at byte
offset 0 of that row. -/
def mk_outdent_action (ind : Indent) (row : Nat)
    (cpair : CursorPosition × CursorPosition) : HistoryAction :=
  match ind with
  | .tabs => .removeChar '\t' ⟨row, 0⟩ cpair
  | .spaces sp => .removeLines [sp] ⟨row, 0⟩ cpair

/-- What an applied outdent action does to its row's text: drop one
leading character (tab mode) or the space run's length (space mode). -/
def outdent_line (ind : Indent) (l : Line) : Line :=
  match ind with
  | .tabs => strRemove l 0
  | .spaces sp => strDrain l 0 sp.length

/-- The `_ =>` arm of the Back-Tab branch (no selection, or a selection on
the cursor's own row): test the cursor row, and on success apply one
`do_action`, move the cursor, and shift the selection anchor left.  The
Rust `selection.col - increment` is a plain `usize` subtraction; it is
totalised here as saturating subtraction, which agrees with it whenever
the source does not panic. -/
def back_tab_single (s : TextArea) : TextArea × Bool :=
  let cursor := s.cursor
  let action : Option HistoryAction :=
    if outdent_test s.indent (s.lines.getD cursor.row []) then
      some (mk_outdent_action s.indent cursor.row
        (cursor, ⟨cursor.row, cursor.col - indent_width s.indent⟩))
    else none
  match action with
  | some a =>
    let (s1, cur1) := do_action s a
    let s2 := set_cursor s1 cur1 false
    let s3 := set_selection s2 (s.selection.map
      (fun sel => ⟨sel.row, sel.col - indent_width s.indent⟩))
    (s3, true)
  | none => (s, false)

/-- The first block of the multi-row Back-Tab arm: outdent the earlier
endpoint's row (with a cursor-column adjustment when that is the cursor's
own row). -/
def back_tab_first (s : TextArea) (selection : CursorPosition) :
    TextArea × CursorPosition × Bool :=
  let cursor := s.cursor
  if cursor.blt selection then
    if outdent_test s.indent (s.lines.getD cursor.row []) then
      let (t, c) := do_action s (mk_outdent_action s.indent cursor.row
        (cursor, ⟨cursor.row, cursor.col - indent_width s.indent⟩))
      (t, c, false)
    else (s, cursor, true)
  else
    if outdent_test s.indent (s.lines.getD selection.row []) then
      let (t, c) := do_action s
        (mk_outdent_action s.indent selection.row (cursor, cursor))
      (t, c, false)
    else (s, cursor, true)

/-- One iteration of the multi-row Back-Tab loop over the interior rows:
the state threads the textarea, the running cursor, and the
`first_action` flag (the first applied action uses `do_action`, every
later one `do_action_chain`). -/
def back_tab_step (st : TextArea × CursorPosition × Bool) (row : Nat) :
    TextArea × CursorPosition × Bool :=
  let (t, cur, fa) := st
  if outdent_test t.indent (t.lines.getD row []) then
    let a := mk_outdent_action t.indent row (cur, cur)
    if fa then
      let (t1, c1) := do_action t a
      (t1, c1, false)
    else
      let (t1, c1) := do_action_chain t a
      (t1, c1, false)
  else (t, cur, fa)

/-- The last block of the multi-row Back-Tab arm: outdent the later
endpoint's row (chosen by comparing the UPDATED running cursor with the
selection, as the source does), then restore the cursor and store the
selection anchor shifted right by the applied increment; the returned
flag is the negated `first_action`. -/
def back_tab_last (selection : CursorPosition)
    (st : TextArea × CursorPosition × Bool) : TextArea × Bool :=
  let (s2, cursor2, first2) := st
  let action2 : Option HistoryAction :=
    if cursor2.blt selection then
      if outdent_test s2.indent (s2.lines.getD selection.row []) then
        some (mk_outdent_action s2.indent selection.row (cursor2, cursor2))
      else none
    else
      if outdent_test s2.indent (s2.lines.getD cursor2.row []) then
        some (mk_outdent_action s2.indent cursor2.row
          (cursor2, ⟨cursor2.row, cursor2.col - indent_width s2.indent⟩))
      else none
  let selection_increment :=
    if action2.isSome then indent_width s2.indent else 0
  let (s3, cursor3, first3) :=
    match action2 with
    | some a =>
      if first2 then
        let (t1, c1) := do_action s2 a
        (t1, c1, false)
      else
        let (t1, c1) := do_action_chain s2 a
        (t1, c1, false)
    | none => (s2, cursor2, first2)
  let s4 := set_cursor s3 cursor3 false
  let s5 := set_selection s4
    (some ⟨selection.row, selection.col + selection_increment⟩)
  (s5, !first3)

/-- The multi-row Back-Tab arm (selection on a different row): first
block, loop over the strictly interior rows in increasing order, last
block. -/
def back_tab_multi (s : TextArea) (selection : CursorPosition) :
    TextArea × Bool :=
  let cursor := s.cursor
  let selection_range : List Nat :=
    if cursor.blt selection then
      List.range' (cursor.row + 1) (selection.row - (cursor.row + 1))
    else
      List.range' (selection.row + 1) (cursor.row - (selection.row + 1))
  back_tab_last selection
    (selection_range.foldl back_tab_step (back_tab_first s selection))

/-- The whole Back-Tab branch of `Editor::input`: the multi-row arm fires
only for a selection on a different row. -/
def back_tab (s : TextArea) : TextArea × Bool :=
  match s.selection with
  | some selection =>
    if s.cursor.row ≠ selection.row then back_tab_multi s selection
    else back_tab_single s
  | none => back_tab_single s

/-- A one-line space-mode buffer whose row starts with a tab, not with
the configured four-space run. -/
def c8Start : TextArea :=
  ⟨[['\t', 'a', 'b', 'c', 'd']], ⟨0, 0⟩, none, [], [],
    .spaces [' ', ' ', ' ', ' ']⟩

/-- A three-line tab-mode buffer with a selection from row 0 to row 2;
row 1 has no leading tab. -/
def c8T : TextArea :=
  ⟨[['\t', 'x'], ['y'], ['\t', 'z']], ⟨0, 0⟩, some ⟨2, 0⟩, [], [], .tabs⟩

/-- Claim C8 counterexample: in space-indent mode, Back-Tab on a row that
starts with a tab — NOT with the configured indent unit, the four-space
run — is not a no-op: the guard also accepts a leading tab, and the
pushed RemoveLines action then drains four characters (tab plus three
content characters) from the row, the command reports "changed" and one
history entry is created. -/
theorem back_tab_counterexample :
    (back_tab c8Start).2 = true ∧
    (back_tab c8Start).1.lines = [['d']] ∧
    (back_tab c8Start).1.lines ≠ c8Start.lines ∧
    (back_tab c8Start).1.undo_history.length = 1 := by decide

theorem getD_set_ne' {α : Type} (d : α) :
    ∀ (l : List α) (i j : Nat) (x : α), i ≠ j →
      (l.set i x).getD j d = l.getD j d
  | [], _, _, _, _ => rfl
  | a :: t, 0, 0, x, h => absurd rfl h
  | a :: t, 0, j + 1, x, h => rfl
  | a :: t, i + 1, 0, x, h => rfl
  | a :: t, i + 1, j + 1, x, h =>
    getD_set_ne' d t i j x (fun hh => h (by rw [hh]))

/-- Applying an outdent action rewrites exactly its own row by
`outdent_line`. -/
theorem mk_outdent_apply_lines (ind : Indent) (row : Nat)
    (c1 c2 : CursorPosition) (lines : Lines) :
    ((mk_outdent_action ind row (c1, c2)).apply lines).1
      = modifyLine lines row (outdent_line ind) := by
  cases ind with
  | tabs => rfl
  | spaces sp =>
    unfold mk_outdent_action HistoryAction.apply outdent_line modifyLine
    dsimp only
    simp only [Nat.zero_add]

/-- The positive single-row Back-Tab, written out. -/
theorem back_tab_single_pos (s : TextArea)
    (htest : outdent_test s.indent (s.lines.getD s.cursor.row []) = true) :
    back_tab_single s =
      (set_selection
        (set_cursor
          (do_action s (mk_outdent_action s.indent s.cursor.row
            (s.cursor,
             ⟨s.cursor.row, s.cursor.col - indent_width s.indent⟩))).1
          (do_action s (mk_outdent_action s.indent s.cursor.row
            (s.cursor,
             ⟨s.cursor.row, s.cursor.col - indent_width s.indent⟩))).2
          false)
        (s.selection.map (fun sel =>
          ⟨sel.row, sel.col - indent_width s.indent⟩)), true) := by
  unfold back_tab_single
  dsimp only
  rw [htest]
  rfl

/-- A loop pass over rows that all fail the guard is the identity. -/
theorem foldl_back_tab_step_id (rs : List Nat) :
    ∀ (t' : TextArea) (cur : CursorPosition) (fa : Bool),
      (∀ x ∈ rs, outdent_test t'.indent (t'.lines.getD x []) = false) →
      rs.foldl back_tab_step (t', cur, fa) = (t', cur, fa) := by
  induction rs with
  | nil => intro t' cur fa h; rfl
  | cons row rs ih =>
    intro t' cur fa h
    rw [List.foldl_cons]
    have hstep : back_tab_step (t', cur, fa) row = (t', cur, fa) := by
      unfold back_tab_step
      dsimp only
      rw [h row (List.mem_cons_self _ _)]
      rfl
    rw [hstep]
    exact ih t' cur fa (fun x hx => h x (List.mem_cons_of_mem _ hx))

/-- One loop step preserves the text of any row whose original content
fails the guard, and preserves the indent mode. -/
theorem back_tab_step_frame (tOrig : TextArea) (r : Nat)
    (htest : outdent_test tOrig.indent (tOrig.lines.getD r []) = false)
    (t' : TextArea) (cur : CursorPosition) (fa : Bool) (row : Nat)
    (hl : t'.lines.getD r [] = tOrig.lines.getD r [])
    (hi : t'.indent = tOrig.indent) :
    (back_tab_step (t', cur, fa) row).1.lines.getD r []
        = tOrig.lines.getD r [] ∧
    (back_tab_step (t', cur, fa) row).1.indent = tOrig.indent := by
  unfold back_tab_step
  dsimp only
  by_cases htst : outdent_test t'.indent (t'.lines.getD row []) = true
  · rw [if_pos htst]
    have hne : row ≠ r := by
      intro hrr
      rw [hrr, hi, hl, htest] at htst
      simp at htst
    cases fa <;>
      (refine ⟨?_, hi⟩
       show ((mk_outdent_action t'.indent row (cur, cur)).apply
          t'.lines).1.getD r [] = _
       rw [mk_outdent_apply_lines]
       unfold modifyLine
       rw [getD_set_ne' [] t'.lines row r _ hne]
       exact hl)
  · rw [if_neg htst]
    exact ⟨hl, hi⟩

/-- The whole loop preserves the text of any row whose original content
fails the guard. -/
theorem foldl_back_tab_step_frame (tOrig : TextArea) (r : Nat)
    (htest : outdent_test tOrig.indent (tOrig.lines.getD r []) = false)
    (rs : List Nat) :
    ∀ (t' : TextArea) (cur : CursorPosition) (fa : Bool),
      t'.lines.getD r [] = tOrig.lines.getD r [] →
      t'.indent = tOrig.indent →
      (rs.foldl back_tab_step (t', cur, fa)).1.lines.getD r []
          = tOrig.lines.getD r [] ∧
      (rs.foldl back_tab_step (t', cur, fa)).1.indent = tOrig.indent := by
  induction rs with
  | nil => intro t' cur fa hl hi; exact ⟨hl, hi⟩
  | cons row rs ih =>
    intro t' cur fa hl hi
    rw [List.foldl_cons]
    obtain ⟨h1, h2⟩ := back_tab_step_frame tOrig r htest t' cur fa row hl hi
    exact ih (back_tab_step (t', cur, fa) row).1
      (back_tab_step (t', cur, fa) row).2.1
      (back_tab_step (t', cur, fa) row).2.2 h1 h2

/-- The first block preserves the text of any row whose original content
fails the guard. -/
theorem back_tab_first_frame (s : TextArea) (sel : CursorPosition) (r : Nat)
    (htest : outdent_test s.indent (s.lines.getD r []) = false) :
    (back_tab_first s sel).1.lines.getD r [] = s.lines.getD r [] ∧
    (back_tab_first s sel).1.indent = s.indent := by
  unfold back_tab_first
  dsimp only
  by_cases hblt : s.cursor.blt sel = true
  · rw [if_pos hblt]
    by_cases htst : outdent_test s.indent (s.lines.getD s.cursor.row [])
        = true
    · rw [if_pos htst]
      have hne : s.cursor.row ≠ r := by
        intro hrr
        rw [hrr, htest] at htst
        simp at htst
      constructor
      · show ((mk_outdent_action s.indent s.cursor.row
            (s.cursor,
             ⟨s.cursor.row, s.cursor.col - indent_width s.indent⟩)).apply
            s.lines).1.getD r [] = _
        rw [mk_outdent_apply_lines]
        unfold modifyLine
        rw [getD_set_ne' [] s.lines s.cursor.row r _ hne]
      · rfl
    · rw [if_neg htst]
      exact ⟨rfl, rfl⟩
  · rw [if_neg hblt]
    by_cases htst : outdent_test s.indent (s.lines.getD sel.row []) = true
    · rw [if_pos htst]
      have hne : sel.row ≠ r := by
        intro hrr
        rw [hrr, htest] at htst
        simp at htst
      constructor
      · show ((mk_outdent_action s.indent sel.row
            (s.cursor, s.cursor)).apply s.lines).1.getD r [] = _
        rw [mk_outdent_apply_lines]
        unfold modifyLine
        rw [getD_set_ne' [] s.lines sel.row r _ hne]
      · rfl
    · rw [if_neg htst]
      exact ⟨rfl, rfl⟩

/-- The last block preserves the text of any row whose original content
fails the guard. -/
theorem back_tab_last_frame (tOrig : TextArea) (sel : CursorPosition)
    (r : Nat)
    (htest : outdent_test tOrig.indent (tOrig.lines.getD r []) = false)
    (t' : TextArea) (cur : CursorPosition) (fa : Bool)
    (hl : t'.lines.getD r [] = tOrig.lines.getD r [])
    (hi : t'.indent = tOrig.indent) :
    (back_tab_last sel (t', cur, fa)).1.lines.getD r []
      = tOrig.lines.getD r [] := by
  unfold back_tab_last
  dsimp only
  by_cases hblt : cur.blt sel = true
  · rw [if_pos hblt]
    by_cases htst : outdent_test t'.indent (t'.lines.getD sel.row []) = true
    · rw [if_pos htst]
      have hne : sel.row ≠ r := by
        intro hrr
        rw [hrr, hi, hl, htest] at htst
        simp at htst
      cases fa
      · show ((mk_outdent_action t'.indent sel.row (cur, cur)).apply
            t'.lines).1.getD r [] = _
        rw [mk_outdent_apply_lines]
        unfold modifyLine
        rw [getD_set_ne' [] t'.lines sel.row r _ hne]
        exact hl
      · show ((mk_outdent_action t'.indent sel.row (cur, cur)).apply
            t'.lines).1.getD r [] = _
        rw [mk_outdent_apply_lines]
        unfold modifyLine
        rw [getD_set_ne' [] t'.lines sel.row r _ hne]
        exact hl
    · rw [if_neg htst]
      exact hl
  · rw [if_neg hblt]
    by_cases htst : outdent_test t'.indent (t'.lines.getD cur.row []) = true
    · rw [if_pos htst]
      have hne : cur.row ≠ r := by
        intro hrr
        rw [hrr, hi, hl, htest] at htst
        simp at htst
      cases fa
      · show ((mk_outdent_action t'.indent cur.row
            (cur, ⟨cur.row, cur.col - indent_width t'.indent⟩)).apply
            t'.lines).1.getD r [] = _
        rw [mk_outdent_apply_lines]
        unfold modifyLine
        rw [getD_set_ne' [] t'.lines cur.row r _ hne]
        exact hl
      · show ((mk_outdent_action t'.indent cur.row
            (cur, ⟨cur.row, cur.col - indent_width t'.indent⟩)).apply
            t'.lines).1.getD r [] = _
        rw [mk_outdent_apply_lines]
        unfold modifyLine
        rw [getD_set_ne' [] t'.lines cur.row r _ hne]
        exact hl
    · rw [if_neg htst]
      exact hl

/-- When both endpoint rows fail the guard, the last block restores the
state exactly: the final `set_cursor`/`set_selection` pair rewrites the
cursor and selection with their own values. -/
theorem back_tab_last_noop (tt : TextArea) (sel : CursorPosition)
    (hsel : tt.selection = some sel)
    (h1 : tt.cursor.blt sel = true →
      outdent_test tt.indent (tt.lines.getD sel.row []) = false)
    (h2 : tt.cursor.blt sel = false →
      outdent_test tt.indent (tt.lines.getD tt.cursor.row []) = false) :
    back_tab_last sel (tt, tt.cursor, true) = (tt, false) := by
  unfold back_tab_last
  dsimp only
  by_cases hblt : tt.cursor.blt sel = true
  · rw [if_pos hblt, h1 hblt]
    show (set_selection (set_cursor tt tt.cursor false) (some sel), false)
      = (tt, false)
    rw [show set_cursor tt tt.cursor false = { tt with selection := none }
      from by unfold set_cursor; rw [hsel]]
    unfold set_selection
    show ({ tt with selection := some sel }, false) = (tt, false)
    rw [← hsel]
  · have hbf : tt.cursor.blt sel = false := by
      cases h : tt.cursor.blt sel
      · rfl
      · exact absurd h hblt
    rw [if_neg hblt, h2 hbf]
    show (set_selection (set_cursor tt tt.cursor false) (some sel), false)
      = (tt, false)
    rw [show set_cursor tt tt.cursor false = { tt with selection := none }
      from by unfold set_cursor; rw [hsel]]
    unfold set_selection
    show ({ tt with selection := some sel }, false) = (tt, false)
    rw [← hsel]

/-- Claim C8 as amended: the per-row guard the command actually uses is
`outdent_test` — a leading tab in tab mode, and a leading tab OR the
configured space run in space mode (not only the exact indent unit).
With that correction: in the single-row arm a failing cursor row makes
the whole command the exact identity returning `false`, and a passing
row is outdented with exactly one history entry and result `true`; in
the multi-row arm every row whose content fails the guard keeps its text
unchanged, and when every row between the endpoints (inclusive) fails
the guard the command returns the state exactly unchanged with `false`. -/
theorem back_tab_amended (s : TextArea)
    (hsingle : s.selection = none ∨
      ∃ sel, s.selection = some sel ∧ sel.row = s.cursor.row)
    (t : TextArea) (sel : CursorPosition)
    (hselT : t.selection = some sel) (hne : t.cursor.row ≠ sel.row) :
    (outdent_test s.indent (s.lines.getD s.cursor.row []) = false →
      back_tab s = (s, false)) ∧
    (outdent_test s.indent (s.lines.getD s.cursor.row []) = true →
      (back_tab s).2 = true ∧
      (back_tab s).1.lines
        = modifyLine s.lines s.cursor.row (outdent_line s.indent) ∧
      (back_tab s).1.undo_history.length
        = s.undo_history.length + 1) ∧
    (∀ r, outdent_test t.indent (t.lines.getD r []) = false →
      (back_tab t).1.lines.getD r [] = t.lines.getD r []) ∧
    ((∀ r, min t.cursor.row sel.row ≤ r → r ≤ max t.cursor.row sel.row →
        outdent_test t.indent (t.lines.getD r []) = false) →
      back_tab t = (t, false)) := by
  have hdisp : back_tab s = back_tab_single s := by
    unfold back_tab
    rcases hsingle with h | ⟨selv, hs, hr⟩
    · rw [h]
    · rw [hs]
      dsimp only
      rw [if_neg (not_not_intro hr.symm)]
  have hdispT : back_tab t = back_tab_multi t sel := by
    unfold back_tab
    rw [hselT]
    dsimp only
    rw [if_pos hne]
  refine ⟨?_, ?_, ?_, ?_⟩
  · intro htest
    rw [hdisp]
    unfold back_tab_single
    dsimp only
    rw [htest]
    rfl
  · intro htest
    rw [hdisp, back_tab_single_pos s htest]
    refine ⟨rfl, ?_, rfl⟩
    show ((mk_outdent_action s.indent s.cursor.row
        (s.cursor, ⟨s.cursor.row, s.cursor.col - indent_width s.indent⟩)).apply
        s.lines).1 = _
    rw [mk_outdent_apply_lines]
  · intro r htest
    rw [hdispT]
    unfold back_tab_multi
    dsimp only
    obtain ⟨hf1, hf2⟩ := back_tab_first_frame t sel r htest
    refine back_tab_last_frame t sel r htest _ _ _ ?_ ?_
    · exact (foldl_back_tab_step_frame t r htest _ _ _ _ hf1 hf2).1
    · exact (foldl_back_tab_step_frame t r htest _ _ _ _ hf1 hf2).2
  · intro hfail
    rw [hdispT]
    unfold back_tab_multi
    dsimp only
    by_cases hblt : t.cursor.blt sel = true
    · have hlt : t.cursor.row < sel.row := by
        unfold CursorPosition.blt at hblt
        simp at hblt
        rcases hblt with h | ⟨h1, h2⟩
        · exact h
        · exact absurd h1 hne
      rw [if_pos hblt]
      have hfirst : back_tab_first t sel = (t, t.cursor, true) := by
        unfold back_tab_first
        dsimp only
        rw [if_pos hblt,
          hfail t.cursor.row (Nat.min_le_left _ _) (Nat.le_max_left _ _)]
        rfl
      rw [hfirst]
      have hmem : ∀ x ∈ List.range' (t.cursor.row + 1)
          (sel.row - (t.cursor.row + 1)),
          outdent_test t.indent (t.lines.getD x []) = false := by
        intro x hx
        rw [List.mem_range'_1] at hx
        exact hfail x (by omega) (by omega)
      rw [foldl_back_tab_step_id _ t t.cursor true hmem]
      exact back_tab_last_noop t sel hselT
        (fun _ => hfail sel.row (Nat.min_le_right _ _) (Nat.le_max_right _ _))
        (fun _ => hfail t.cursor.row (Nat.min_le_left _ _)
          (Nat.le_max_left _ _))
    · have hgt : sel.row < t.cursor.row := by
        unfold CursorPosition.blt at hblt
        simp at hblt
        omega
      rw [if_neg hblt]
      have hfirst : back_tab_first t sel = (t, t.cursor, true) := by
        unfold back_tab_first
        dsimp only
        rw [if_neg hblt,
          hfail sel.row (Nat.min_le_right _ _) (Nat.le_max_right _ _)]
        rfl
      rw [hfirst]
      have hmem : ∀ x ∈ List.range' (sel.row + 1)
          (t.cursor.row - (sel.row + 1)),
          outdent_test t.indent (t.lines.getD x []) = false := by
        intro x hx
        rw [List.mem_range'_1] at hx
        exact hfail x (by omega) (by omega)
      rw [foldl_back_tab_step_id _ t t.cursor true hmem]
      exact back_tab_last_noop t sel hselT
        (fun _ => hfail sel.row (Nat.min_le_right _ _) (Nat.le_max_right _ _))
        (fun _ => hfail t.cursor.row (Nat.min_le_left _ _)
          (Nat.le_max_left _ _))

theorem back_tab_amended_witness :
    (back_tab c8Start).2 = true ∧
    (back_tab c8Start).1.lines = [['d']] ∧
    (back_tab c8T).1.lines.getD 1 [] = ['y'] := by
  have h := back_tab_amended c8Start (Or.inl rfl) c8T ⟨2, 0⟩ rfl (by decide)
  obtain ⟨hb1, hb2, hb3⟩ := h.2.1 (by decide)
  exact ⟨hb1, hb2.trans (by decide), (h.2.2.1 1 (by decide)).trans (by decide)⟩

end Ded
